import Mathlib

/-!
Verification of the k-nearest-neighbor search core of the `clam` repository.

The repository source under `src/` contains only the algorithm dispatcher
`src/abd-clam/src/cakes/knn/mod.rs` (the `Algorithm` enum, its `Default`
implementation and the uniform `search` entry point).  The five strategy
implementations (`linear`, `repeated_rnn`, `sieve_v1`, `sieve_v2`,
`expanding_threshold`) and the `Tree` / `Dataset` / `Cluster` collaborators
are declared there but their code is not part of the provided sources, so
they are modelled from the specification (each such definition carries a
`Modelled from the spec:` doc comment).

Distances are rationals, datasets are finite lists of points of an abstract
type with an explicit distance function, and the metric-tree is an inductive
binary tree of clusters.
-/

section Model

variable {α : Type} [Inhabited α]

/-- Modelled from the spec: the external `Dataset` collaborator — an immutable,
indexable collection of instances plus a distance function over instances and
queries (`dataset.distance`, `dataset.cardinality`). -/
structure DataSet (α : Type) where
  points : List α
  dist : α → α → ℚ

/-- The number of instances in the dataset (`dataset.cardinality()`). -/
def DataSet.cardinality (D : DataSet α) : ℕ := D.points.length

/-- The instance stored at a given index. -/
def DataSet.pt (D : DataSet α) (i : ℕ) : α := D.points.getD i default

/-- The metric axioms the spec imposes on `dataset.distance`: non-negative,
symmetric, triangle inequality. -/
structure IsMetricOn (dist : α → α → ℚ) : Prop where
  nonneg : ∀ x y, 0 ≤ dist x y
  symm : ∀ x y, dist x y = dist y x
  triangle : ∀ x y z, dist x z ≤ dist x y + dist y z

/-- Modelled from the spec: the external `Cluster` collaborator — a node of the
metric tree with a designated center instance, a radius, and either zero
children (leaf, carrying its owned instance indices) or exactly two children
whose instance sets partition the parent's set. -/
inductive Cluster : Type where
  | leaf (center : ℕ) (radius : ℚ) (insts : List ℕ)
  | node (center : ℕ) (radius : ℚ) (left : Cluster) (right : Cluster)

/-- `cluster.center_index()`. -/
def Cluster.centerIndex : Cluster → ℕ
  | .leaf c _ _ => c
  | .node c _ _ _ => c

/-- `cluster.radius()`. -/
def Cluster.radius : Cluster → ℚ
  | .leaf _ r _ => r
  | .node _ r _ _ => r

/-- The dataset indices owned by a cluster, in left-to-right leaf order
(`cluster.instance_indices()`, extended to internal nodes by the partition
property of children). -/
def Cluster.instanceIndices : Cluster → List ℕ
  | .leaf _ _ insts => insts
  | .node _ _ l r => l.instanceIndices ++ r.instanceIndices

/-- `cluster.cardinality()`: the count of instances owned, including nested
descendants. -/
def Cluster.cardinality (c : Cluster) : ℕ := c.instanceIndices.length

/-- Structural size of a cluster tree (number of nodes), used as a recursion
measure. -/
def Cluster.csize : Cluster → ℕ
  | .leaf _ _ _ => 1
  | .node _ _ l r => l.csize + r.csize + 1

/-- Height of a cluster tree, used to bound the number of sieve rounds. -/
def Cluster.cheight : Cluster → ℕ
  | .leaf _ _ _ => 0
  | .node _ _ l r => max l.cheight r.cheight + 1

/-- The radius invariant needed for the distance bounds, at every node of a
cluster: the radius is non-negative and bounds the distance from the center to
every owned instance. -/
def Cluster.BoundOk (D : DataSet α) : Cluster → Prop
  | .leaf c r insts =>
      0 ≤ r ∧ ∀ i ∈ insts, D.dist (D.pt c) (D.pt i) ≤ r
  | .node c r l rr =>
      (0 ≤ r ∧ ∀ i ∈ (Cluster.node c r l rr).instanceIndices,
        D.dist (D.pt c) (D.pt i) ≤ r) ∧ l.BoundOk D ∧ rr.BoundOk D

/-- The full cluster invariant established at tree-build time: leaves are
nonempty, the center is an owned instance, and the radius invariant holds,
recursively at every node. -/
def Cluster.Valid (D : DataSet α) : Cluster → Prop
  | .leaf c r insts =>
      insts ≠ [] ∧ c ∈ insts ∧ 0 ≤ r ∧
        ∀ i ∈ insts, D.dist (D.pt c) (D.pt i) ≤ r
  | .node c r l rr =>
      c ∈ (Cluster.node c r l rr).instanceIndices ∧ 0 ≤ r ∧
        (∀ i ∈ (Cluster.node c r l rr).instanceIndices,
          D.dist (D.pt c) (D.pt i) ≤ r) ∧ l.Valid D ∧ rr.Valid D

theorem Cluster.Valid.boundOk {D : DataSet α} :
    ∀ {c : Cluster}, c.Valid D → c.BoundOk D
  | .leaf _ _ _, h => ⟨h.2.2.1, h.2.2.2⟩
  | .node _ _ _ _, h => ⟨⟨h.2.1, h.2.2.1⟩, h.2.2.2.1.boundOk, h.2.2.2.2.boundOk⟩

theorem Cluster.BoundOk.radius_nonneg {D : DataSet α} {c : Cluster}
    (h : c.BoundOk D) : 0 ≤ c.radius := by
  cases c with
  | leaf _ _ _ => exact h.1
  | node _ _ _ _ => exact h.1.1

theorem Cluster.BoundOk.center_le {D : DataSet α} {c : Cluster}
    (h : c.BoundOk D) : ∀ i ∈ c.instanceIndices,
    D.dist (D.pt c.centerIndex) (D.pt i) ≤ c.radius := by
  cases c with
  | leaf _ _ _ => exact h.2
  | node _ _ _ _ => exact h.1.2

theorem Cluster.BoundOk.left {D : DataSet α} {ctr : ℕ} {rad : ℚ}
    {l rr : Cluster} (h : (Cluster.node ctr rad l rr).BoundOk D) :
    l.BoundOk D := h.2.1

theorem Cluster.BoundOk.right {D : DataSet α} {ctr : ℕ} {rad : ℚ}
    {l rr : Cluster} (h : (Cluster.node ctr rad l rr).BoundOk D) :
    rr.BoundOk D := h.2.2

theorem Cluster.Valid.card_pos {D : DataSet α} :
    ∀ {c : Cluster}, c.Valid D → 0 < c.cardinality := by
  intro c h
  cases c with
  | leaf ctr r insts =>
      have : insts ≠ [] := h.1
      simpa [Cluster.cardinality, Cluster.instanceIndices,
        List.length_pos] using this
  | node ctr r l rr =>
      have hl := Cluster.Valid.card_pos h.2.2.2.1
      simp only [Cluster.cardinality, Cluster.instanceIndices,
        List.length_append] at *
      omega

/-- Modelled from the spec: the external `Tree` collaborator — a root cluster
plus a handle to the dataset and an index ordering. -/
structure TreeM (α : Type) where
  data : DataSet α
  root : Cluster

/-- `tree.indices()`: the index ordering of the tree. -/
def TreeM.indices (T : TreeM α) : List ℕ := T.root.instanceIndices

/-- `tree.radius()`: the root cluster's radius. -/
def TreeM.radius (T : TreeM α) : ℚ := T.root.radius

/-- Tree validity: the root cluster satisfies the cluster invariant and its
owned indices are exactly the dataset indices, in some order. -/
def TreeM.Valid (T : TreeM α) : Prop :=
  T.root.Valid T.data ∧ T.indices.Perm (List.range T.data.cardinality)

/-- `d_min`: lower bound on the distance from a query to any instance of a
cluster, from the center distance `dc` and the `radius`. -/
def d_min (dc radius : ℚ) : ℚ := max 0 (dc - radius)

/-- `d_max`: upper bound on the distance from a query to any instance of a
cluster, from the center distance `dc` and the `radius`. -/
def d_max (dc radius : ℚ) : ℚ := dc + radius

/-- The `d_min` bound of a cluster for a query. -/
def Cluster.dMinQ (D : DataSet α) (q : α) (c : Cluster) : ℚ :=
  d_min (D.dist q (D.pt c.centerIndex)) c.radius

/-- The `d_max` bound of a cluster for a query. -/
def Cluster.dMaxQ (D : DataSet α) (q : α) (c : Cluster) : ℚ :=
  d_max (D.dist q (D.pt c.centerIndex)) c.radius

theorem d_min_nonneg (dc radius : ℚ) : 0 ≤ d_min dc radius :=
  le_max_left 0 _

theorem dMinQ_le_dist (D : DataSet α) (q : α) {c : Cluster}
    (hm : IsMetricOn D.dist) (hb : c.BoundOk D) :
    ∀ i ∈ c.instanceIndices, c.dMinQ D q ≤ D.dist q (D.pt i) := by
  intro i hi
  have hc := hb.center_le i hi
  have htri := hm.triangle q (D.pt i) (D.pt c.centerIndex)
  have hsymm := hm.symm (D.pt i) (D.pt c.centerIndex)
  have h1 : D.dist q (D.pt c.centerIndex) - c.radius ≤ D.dist q (D.pt i) := by
    have : D.dist (D.pt i) (D.pt c.centerIndex) ≤ c.radius := by
      rw [hsymm]; exact hc
    linarith
  have h0 := hm.nonneg q (D.pt i)
  simp only [Cluster.dMinQ, d_min, max_le_iff]
  exact ⟨h0, h1⟩

theorem dist_le_dMaxQ (D : DataSet α) (q : α) {c : Cluster}
    (hm : IsMetricOn D.dist) (hb : c.BoundOk D) :
    ∀ i ∈ c.instanceIndices, D.dist q (D.pt i) ≤ c.dMaxQ D q := by
  intro i hi
  have hc := hb.center_le i hi
  have htri := hm.triangle q (D.pt c.centerIndex) (D.pt i)
  have hsymm := hm.symm (D.pt c.centerIndex) (D.pt i)
  simp only [Cluster.dMaxQ, d_max]
  have : D.dist (D.pt c.centerIndex) (D.pt i) ≤ c.radius := hc
  linarith

theorem dMinQ_le_dMaxQ (D : DataSet α) (q : α) {c : Cluster}
    (hm : IsMetricOn D.dist) (hb : c.BoundOk D) :
    c.dMinQ D q ≤ c.dMaxQ D q := by
  have h0 := hm.nonneg q (D.pt c.centerIndex)
  have hr := hb.radius_nonneg
  simp only [Cluster.dMinQ, Cluster.dMaxQ, d_min, d_max, max_le_iff]
  constructor <;> linarith

end Model

section Selection

variable {α : Type} [Inhabited α]

/-- Ordering of (index, distance) pairs by distance, used by every algorithm
to produce its ascending result sequence. -/
def pairLe (a b : ℕ × ℚ) : Prop := a.2 ≤ b.2

instance : DecidableRel pairLe := fun a b => inferInstanceAs (Decidable (a.2 ≤ b.2))

instance : IsTotal (ℕ × ℚ) pairLe := ⟨fun a b => le_total a.2 b.2⟩

instance : IsTrans (ℕ × ℚ) pairLe := ⟨fun _ _ _ h1 h2 => le_trans h1 h2⟩

/-- Stable sort of (index, distance) pairs, ascending by distance. -/
def sortByDist (l : List (ℕ × ℚ)) : List (ℕ × ℚ) := List.insertionSort pairLe l

/-- What it means for `res` to be a correct k-nearest-neighbor answer for
query `q`: right length, ascending distances, distinct indices, truthful
(index, distance) pairs, and no omitted instance closer than a reported one. -/
def IsKnnResult (D : DataSet α) (q : α) (k : ℕ) (res : List (ℕ × ℚ)) : Prop :=
  res.length = min k D.cardinality ∧
  List.Sorted (· ≤ ·) (res.map Prod.snd) ∧
  (res.map Prod.fst).Nodup ∧
  (∀ p ∈ res, p.1 < D.cardinality ∧ p.2 = D.dist q (D.pt p.1)) ∧
  (∀ j, j < D.cardinality → j ∉ res.map Prod.fst →
    ∀ p ∈ res, p.2 ≤ D.dist q (D.pt j))

/-- The number of indices in `l` whose point lies within distance `v` of `q`. -/
def distLeCount (D : DataSet α) (q : α) (v : ℚ) (l : List ℕ) : ℕ :=
  l.countP (fun i => decide (D.dist q (D.pt i) ≤ v))

/-- The working-set invariant shared by every pruning algorithm: the still
`covered` indices are at least as many as `min k cardinality`, and within any
radius `v` they are no scarcer than `min k` (all dataset points within `v`). -/
def Dominates (D : DataSet α) (q : α) (k : ℕ) (covered : List ℕ) : Prop :=
  min k D.cardinality ≤ covered.length ∧
  ∀ v : ℚ, min k (distLeCount D q v (List.range D.cardinality)) ≤
    distLeCount D q v covered

theorem dominates_range (D : DataSet α) (q : α) (k : ℕ) {l : List ℕ}
    (h : l.Perm (List.range D.cardinality)) : Dominates D q k l := by
  constructor
  · rw [h.length_eq, List.length_range]
    exact min_le_right _ _
  · intro v
    simp only [distLeCount]
    rw [List.Perm.countP_eq _ h]
    exact min_le_right _ _

theorem dominates_sub (D : DataSet α) {covered : List ℕ}
    (hnd : covered.Nodup) (hsub : ∀ i ∈ covered, i < D.cardinality) :
    covered.length ≤ D.cardinality := by
  have hsp : covered.Subperm (List.range D.cardinality) :=
    List.subperm_of_subset hnd (fun i hi => List.mem_range.mpr (hsub i hi))
  simpa using hsp.length_le

/-- Every element of the first `t+1` entries of a `pairLe`-sorted list is no
farther than the entry at position `t`. -/
theorem sorted_take_le : ∀ (l : List (ℕ × ℚ)), List.Sorted pairLe l →
    ∀ (t : ℕ) (ht : t < l.length), ∀ p ∈ l.take (t + 1), p.2 ≤ l[t].2 := by
  intro l
  induction l with
  | nil => intro _ t ht; simp at ht
  | cons x xs ih =>
      intro hs t ht p hp
      cases t with
      | zero =>
          simp only [List.take_succ_cons, List.take_zero, List.mem_singleton] at hp
          subst hp
          simp
      | succ t =>
          simp only [List.take_succ_cons, List.mem_cons] at hp
          have hs' := List.pairwise_cons.mp hs
          have ht' : t < xs.length := by simpa using ht
          simp only [List.getElem_cons_succ]
          rcases hp with rfl | hp
          · exact hs'.1 _ (List.getElem_mem ht')
          · exact ih hs'.2 t ht' p hp

/-- Every element of the tail `l.drop t` of a `pairLe`-sorted list is at least
as far as the entry at position `t`. -/
theorem sorted_drop_ge (l : List (ℕ × ℚ)) (hs : List.Sorted pairLe l)
    (t : ℕ) (ht : t < l.length) : ∀ p ∈ l.drop t, l[t].2 ≤ p.2 := by
  intro p hp
  rw [List.drop_eq_getElem_cons ht] at hp
  have hsd : List.Sorted pairLe (l[t] :: l.drop (t + 1)) := by
    rw [← List.drop_eq_getElem_cons ht]
    exact List.Pairwise.sublist (List.drop_sublist t l) hs
  rcases List.mem_cons.mp hp with rfl | hp
  · exact le_refl _
  · exact (List.pairwise_cons.mp hsd).1 p hp

end Selection

section FinalLemma

variable {α : Type} [Inhabited α]

theorem isKnnResult_of_dominates (D : DataSet α) (q : α) (k : ℕ)
    (covered : List ℕ) (hnd : covered.Nodup)
    (hsub : ∀ i ∈ covered, i < D.cardinality)
    (hdom : Dominates D q k covered) :
    IsKnnResult D q k
      ((sortByDist (covered.map fun i => (i, D.dist q (D.pt i)))).take k) := by
  set pairs := covered.map fun i => (i, D.dist q (D.pt i)) with hpairs
  set srt := sortByDist pairs with hsrt
  have hperm : srt.Perm pairs := List.perm_insertionSort pairLe pairs
  have hsorted : List.Sorted pairLe srt := List.sorted_insertionSort pairLe pairs
  have hfst : pairs.map Prod.fst = covered := by
    rw [hpairs, List.map_map]
    have hid : (Prod.fst ∘ fun i : ℕ => (i, D.dist q (D.pt i))) = id := rfl
    rw [hid, List.map_id]
  have hlen_srt : srt.length = covered.length := by
    rw [hperm.length_eq, hpairs, List.length_map]
  have hcard : covered.length ≤ D.cardinality := dominates_sub D hnd hsub
  have hmem_srt : ∀ p ∈ srt, p.1 ∈ covered ∧ p.2 = D.dist q (D.pt p.1) := by
    intro p hp
    have hp' : p ∈ pairs := hperm.subset hp
    rw [hpairs] at hp'
    rcases List.mem_map.mp hp' with ⟨i, hi, rfl⟩
    exact ⟨hi, rfl⟩
  refine ⟨?_, ?_, ?_, ?_, ?_⟩
  · rw [List.length_take, hlen_srt]
    have h2 := hdom.1
    omega
  · have hres : List.Pairwise pairLe (srt.take k) :=
      List.Pairwise.sublist (List.take_sublist k srt) hsorted
    exact List.pairwise_map.mpr hres
  · have hmf : (srt.map Prod.fst).Perm covered := by
      have := hperm.map Prod.fst
      rwa [hfst] at this
    have hnd2 : (srt.map Prod.fst).Nodup := hmf.symm.nodup hnd
    rw [List.map_take]
    exact List.Nodup.sublist (List.take_sublist k _) hnd2
  · intro p hp
    have hp' := hmem_srt p (List.mem_of_mem_take hp)
    exact ⟨hsub _ hp'.1, hp'.2⟩
  · intro j hj hjn p hp
    by_cases hcov : j ∈ covered
    · have hjp : (j, D.dist q (D.pt j)) ∈ pairs := by
        rw [hpairs]
        exact List.mem_map_of_mem _ hcov
      have hjs : (j, D.dist q (D.pt j)) ∈ srt := hperm.mem_iff.mpr hjp
      have hjdrop : (j, D.dist q (D.pt j)) ∈ srt.drop k := by
        rcases List.mem_append.mp
          (by rw [List.take_append_drop k srt]; exact hjs) with h | h
        · exfalso
          exact hjn (List.mem_map_of_mem Prod.fst h)
        · exact h
      have hpw : List.Pairwise pairLe (srt.take k ++ srt.drop k) := by
        rw [List.take_append_drop k srt]
        exact hsorted
      exact (List.pairwise_append.mp hpw).2.2 p hp _ hjdrop
    · by_contra hlt
      push_neg at hlt
      set m := D.dist q (D.pt j) with hm
      set P : ℕ → Bool := fun i => decide (D.dist q (D.pt i) ≤ m) with hP
      have hstep1 : covered.countP P + 1 ≤ (List.range D.cardinality).countP P := by
        have hnd2 : (j :: covered).Nodup := List.nodup_cons.mpr ⟨hcov, hnd⟩
        have hsub2 : j :: covered ⊆ List.range D.cardinality := by
          intro x hx
          rcases List.mem_cons.mp hx with rfl | hx
          · exact List.mem_range.mpr hj
          · exact List.mem_range.mpr (hsub x hx)
        have hsp := List.subperm_of_subset hnd2 hsub2
        have := List.Subperm.countP_le P hsp
        rw [List.countP_cons] at this
        have hPj : P j = true := by
          simp [hP]
        rw [hPj] at this
        simpa using this
      have hstep2 : k ≤ covered.countP P := by
        have h2 := hdom.2 m
        simp only [distLeCount] at h2
        rw [← hP] at h2
        omega
      have hstep3 : srt.countP (fun p => decide (p.2 ≤ m)) = covered.countP P := by
        rw [List.Perm.countP_eq _ hperm, hpairs, List.countP_map]
        rfl
      have hdropzero : (srt.drop k).countP (fun p => decide (p.2 ≤ m)) = 0 := by
        apply List.countP_eq_zero.mpr
        intro b hb
        have hpb : pairLe p b := by
          have hpw : List.Pairwise pairLe (srt.take k ++ srt.drop k) := by
            rw [List.take_append_drop k srt]
            exact hsorted
          exact (List.pairwise_append.mp hpw).2.2 p hp _ hb
        simp only [pairLe] at hpb
        simp only [decide_eq_true_eq]
        intro hble
        exact absurd (le_trans hpb hble) (not_le.mpr hlt)
      have htakelt : (srt.take k).countP (fun p => decide (p.2 ≤ m)) < k := by
        have hne : (srt.take k).countP (fun p => decide (p.2 ≤ m)) ≠
            (srt.take k).length := by
          intro he
          have := List.countP_eq_length.mp he p hp
          simp only [decide_eq_true_eq] at this
          exact absurd this (not_le.mpr hlt)
        have hle := List.countP_le_length (l := srt.take k)
          (p := fun p => decide (p.2 ≤ m))
        have hlt2 : (srt.take k).length ≤ k := by
          rw [List.length_take]
          omega
        omega
      have hsplit : srt.countP (fun p => decide (p.2 ≤ m)) =
          (srt.take k).countP (fun p => decide (p.2 ≤ m)) +
          (srt.drop k).countP (fun p => decide (p.2 ≤ m)) := by
        conv_lhs => rw [← List.take_append_drop k srt]
        exact List.countP_append _ _ _
      omega

end FinalLemma

section Uniqueness

variable {α : Type} [Inhabited α]

theorem sorted_pairs_of_snd {l : List (ℕ × ℚ)}
    (h : List.Sorted (· ≤ ·) (l.map Prod.snd)) : List.Sorted pairLe l := by
  have h2 : List.Pairwise (fun a b : ℕ × ℚ => a.2 ≤ b.2) l :=
    List.pairwise_map.mp h
  exact h2

theorem knnResult_snd_le (D : DataSet α) (q : α) (k : ℕ)
    {r1 r2 : List (ℕ × ℚ)} (h1 : IsKnnResult D q k r1) (h2 : IsKnnResult D q k r2)
    (t : ℕ) (ht1 : t < r1.length) (ht2 : t < r2.length) :
    r2[t].2 ≤ r1[t].2 := by
  by_contra hlt
  push_neg at hlt
  set m := r1[t].2 with hm
  have hs1 : List.Sorted pairLe r1 := sorted_pairs_of_snd h1.2.1
  have hs2 : List.Sorted pairLe r2 := sorted_pairs_of_snd h2.2.1
  set A := (r1.take (t + 1)).map Prod.fst with hA
  have hlenA : A.length = t + 1 := by
    rw [hA, List.length_map, List.length_take]
    omega
  have hndA : A.Nodup := by
    rw [hA, List.map_take]
    exact List.Nodup.sublist (List.take_sublist _ _) h1.2.2.1
  have hmemA : ∀ i ∈ A, i < D.cardinality ∧ D.dist q (D.pt i) ≤ m := by
    intro i hi
    rw [hA] at hi
    rcases List.mem_map.mp hi with ⟨p, hp, rfl⟩
    have hple := sorted_take_le r1 hs1 t ht1 p hp
    have hmem : p ∈ r1 := List.mem_of_mem_take hp
    have hok := h1.2.2.2.1 p hmem
    exact ⟨hok.1, by rw [← hok.2]; exact hple⟩
  set B := (r2.filter fun p => decide (p.2 ≤ m)).map Prod.fst with hB
  have hlenB : B.length ≤ t := by
    rw [hB, List.length_map, ← List.countP_eq_length_filter]
    have hsplit : r2.countP (fun p => decide (p.2 ≤ m)) =
        (r2.take t).countP (fun p => decide (p.2 ≤ m)) +
        (r2.drop t).countP (fun p => decide (p.2 ≤ m)) := by
      conv_lhs => rw [← List.take_append_drop t r2]
      exact List.countP_append _ _ _
    have hdrop : (r2.drop t).countP (fun p => decide (p.2 ≤ m)) = 0 := by
      apply List.countP_eq_zero.mpr
      intro b hb
      have := sorted_drop_ge r2 hs2 t ht2 b hb
      simp only [decide_eq_true_eq]
      intro hble
      exact absurd (lt_of_lt_of_le hlt (le_trans this hble)) (lt_irrefl m)
    have htake : (r2.take t).countP (fun p => decide (p.2 ≤ m)) ≤ t := by
      have := List.countP_le_length (l := r2.take t)
        (p := fun p => decide (p.2 ≤ m))
      rw [List.length_take] at this
      omega
    omega
  have hex : ∃ i ∈ A, i ∉ B := by
    by_contra hAB
    push_neg at hAB
    have hsp := List.subperm_of_subset hndA hAB
    have := hsp.length_le
    omega
  rcases hex with ⟨i, hiA, hiB⟩
  have hmA := hmemA i hiA
  have hinotin : i ∉ r2.map Prod.fst := by
    intro hin
    rcases List.mem_map.mp hin with ⟨p2, hp2, rfl⟩
    have hok2 := h2.2.2.2.1 p2 hp2
    apply hiB
    rw [hB]
    apply List.mem_map_of_mem
    rw [List.mem_filter]
    refine ⟨hp2, ?_⟩
    simp only [decide_eq_true_eq]
    rw [hok2.2]
    exact hmA.2
  have hsel := h2.2.2.2.2 i hmA.1 hinotin r2[t] (List.getElem_mem ht2)
  have : r2[t].2 ≤ m := le_trans hsel hmA.2
  exact absurd (lt_of_lt_of_le hlt this) (lt_irrefl _)

theorem knnResult_map_snd_eq (D : DataSet α) (q : α) (k : ℕ)
    {r1 r2 : List (ℕ × ℚ)} (h1 : IsKnnResult D q k r1)
    (h2 : IsKnnResult D q k r2) :
    r1.map Prod.snd = r2.map Prod.snd := by
  have hlen : r1.length = r2.length := by rw [h1.1, h2.1]
  apply List.ext_getElem
  · rw [List.length_map, List.length_map, hlen]
  · intro n hn1 hn2
    rw [List.length_map] at hn1 hn2
    simp only [List.getElem_map]
    exact le_antisymm (knnResult_snd_le D q k h2 h1 n hn2 hn1)
      (knnResult_snd_le D q k h1 h2 n hn1 hn2)

end Uniqueness

section LinearRange

variable {α : Type} [Inhabited α]

/-- Modelled from the spec: `linear::search` (`src/cakes/knn/linear.rs`) —
compute the distance to every index reachable from the tree, select the `k`
smallest by a partial sort, return them ascending. -/
def linearSearch (D : DataSet α) (q : α) (k : ℕ) (indices : List ℕ) :
    List (ℕ × ℚ) :=
  (sortByDist (indices.map fun i => (i, D.dist q (D.pt i)))).take k

theorem linearSearch_isKnn (D : DataSet α) (q : α) (k : ℕ) {indices : List ℕ}
    (hperm : indices.Perm (List.range D.cardinality)) :
    IsKnnResult D q k (linearSearch D q k indices) := by
  apply isKnnResult_of_dominates
  · exact hperm.symm.nodup (List.nodup_range _)
  · intro i hi
    exact List.mem_range.mp (hperm.subset hi)
  · exact dominates_range D q k hperm

/-- The per-instance range filter: all indices of `l` within distance `r` of
the query, paired with their exact distances. -/
def rangeList (D : DataSet α) (q : α) (r : ℚ) (l : List ℕ) : List (ℕ × ℚ) :=
  l.filterMap fun i =>
    if D.dist q (D.pt i) ≤ r then some (i, D.dist q (D.pt i)) else none

theorem rangeList_eq_filter_map (D : DataSet α) (q : α) (r : ℚ) (l : List ℕ) :
    rangeList D q r l = (l.filter fun i => decide (D.dist q (D.pt i) ≤ r)).map
      fun i => (i, D.dist q (D.pt i)) := by
  induction l with
  | nil => rfl
  | cons x xs ih =>
      by_cases h : D.dist q (D.pt x) ≤ r
      · simp only [rangeList, List.filterMap_cons, if_pos h, List.filter_cons,
          if_pos (decide_eq_true h), List.map_cons]
        rw [← rangeList, ih]
      · simp only [rangeList, List.filterMap_cons, if_neg h, List.filter_cons,
          if_neg (show ¬ decide (D.dist q (D.pt x) ≤ r) = true by simpa using h)]
        rw [← rangeList, ih]

theorem rangeList_length (D : DataSet α) (q : α) (r : ℚ) (l : List ℕ) :
    (rangeList D q r l).length = distLeCount D q r l := by
  rw [rangeList_eq_filter_map, List.length_map, distLeCount,
    List.countP_eq_length_filter]

theorem rangeList_eq_map_of_all (D : DataSet α) (q : α) (r : ℚ) {l : List ℕ}
    (h : ∀ i ∈ l, D.dist q (D.pt i) ≤ r) :
    rangeList D q r l = l.map fun i => (i, D.dist q (D.pt i)) := by
  induction l with
  | nil => rfl
  | cons x xs ih =>
      simp only [rangeList, List.filterMap_cons,
        if_pos (h x (List.mem_cons_self x xs)), List.map_cons]
      rw [← rangeList, ih fun i hi => h i (List.mem_cons_of_mem x hi)]

theorem rangeList_eq_nil_of_none (D : DataSet α) (q : α) (r : ℚ) {l : List ℕ}
    (h : ∀ i ∈ l, ¬ D.dist q (D.pt i) ≤ r) :
    rangeList D q r l = [] := by
  apply List.filterMap_eq_nil.mpr
  intro i hi
  rw [if_neg (h i hi)]

/-- Modelled from the spec: the tree-pruned range query used by repeated-RNN
(`src/cakes/rnn`): a cluster with `d_min > r` is skipped entirely, a cluster
with `d_max ≤ r` contributes all members without per-instance checks, and
otherwise the children are recursed into (instances checked individually at
leaves). -/
def rangeSearch (D : DataSet α) (q : α) (r : ℚ) : Cluster → List (ℕ × ℚ)
  | .leaf c rad insts =>
      if r < d_min (D.dist q (D.pt c)) rad then []
      else if d_max (D.dist q (D.pt c)) rad ≤ r then
        insts.map fun i => (i, D.dist q (D.pt i))
      else rangeList D q r insts
  | .node c rad l rr =>
      if r < d_min (D.dist q (D.pt c)) rad then []
      else if d_max (D.dist q (D.pt c)) rad ≤ r then
        (l.instanceIndices ++ rr.instanceIndices).map
          fun i => (i, D.dist q (D.pt i))
      else rangeSearch D q r l ++ rangeSearch D q r rr

theorem rangeSearch_eq (D : DataSet α) (q : α) (hm : IsMetricOn D.dist) :
    ∀ (c : Cluster), c.BoundOk D → ∀ r : ℚ,
    rangeSearch D q r c = rangeList D q r c.instanceIndices := by
  intro c
  induction c with
  | leaf ctr rad insts =>
      intro hb r
      simp only [rangeSearch, Cluster.instanceIndices]
      by_cases h1 : r < d_min (D.dist q (D.pt ctr)) rad
      · rw [if_pos h1]
        refine (rangeList_eq_nil_of_none D q r fun i hi hle => ?_).symm
        have := dMinQ_le_dist D q (c := .leaf ctr rad insts) hm hb i hi
        simp only [Cluster.dMinQ, Cluster.centerIndex, Cluster.radius] at this
        exact absurd (le_trans this hle) (not_le.mpr h1)
      · rw [if_neg h1]
        by_cases h2 : d_max (D.dist q (D.pt ctr)) rad ≤ r
        · rw [if_pos h2]
          refine (rangeList_eq_map_of_all D q r fun i hi => ?_).symm
          have := dist_le_dMaxQ D q (c := .leaf ctr rad insts) hm hb i hi
          simp only [Cluster.dMaxQ, Cluster.centerIndex, Cluster.radius] at this
          exact le_trans this h2
        · rw [if_neg h2]
  | node ctr rad l rr ihl ihr =>
      intro hb r
      simp only [rangeSearch, Cluster.instanceIndices]
      by_cases h1 : r < d_min (D.dist q (D.pt ctr)) rad
      · rw [if_pos h1]
        refine (rangeList_eq_nil_of_none D q r fun i hi hle => ?_).symm
        have := dMinQ_le_dist D q (c := .node ctr rad l rr) hm hb i hi
        simp only [Cluster.dMinQ, Cluster.centerIndex, Cluster.radius] at this
        exact absurd (le_trans this hle) (not_le.mpr h1)
      · rw [if_neg h1]
        by_cases h2 : d_max (D.dist q (D.pt ctr)) rad ≤ r
        · rw [if_pos h2]
          refine (rangeList_eq_map_of_all D q r fun i hi => ?_).symm
          have := dist_le_dMaxQ D q (c := .node ctr rad l rr) hm hb i hi
          simp only [Cluster.dMaxQ, Cluster.centerIndex, Cluster.radius] at this
          exact le_trans this h2
        · rw [if_neg h2, ihl hb.2.1 r, ihr hb.2.2 r]
          simp only [rangeList, List.filterMap_append]

end LinearRange

section RepeatedRnn

variable {α : Type} [Inhabited α]

/-- An executable upper-integer bound for a rational, used to compute the
iteration fuel of the repeated-RNN radius loops. -/
def qCeilNat (x : ℚ) : ℕ := x.num.toNat / x.den + 1

theorem le_qCeilNat (x : ℚ) : x ≤ (qCeilNat x : ℚ) := by
  rcases le_or_lt x.num 0 with h | h
  · have hx : x ≤ 0 := by
      exact_mod_cast Rat.num_nonpos.mp h
    refine le_trans hx ?_
    positivity
  · have hden : (0 : ℚ) < (x.den : ℚ) := by
      exact_mod_cast x.pos
    have hnum : (x.num.toNat : ℤ) = x.num := Int.toNat_of_nonneg h.le
    have hdiv : x.num.toNat ≤ (x.num.toNat / x.den) * x.den + x.den := by
      have hmod := Nat.div_add_mod x.num.toNat x.den
      have hlt := Nat.mod_lt x.num.toNat x.den_pos
      rw [Nat.mul_comm]
      omega
    rw [qCeilNat]
    conv_lhs => rw [← Rat.num_div_den x]
    rw [div_le_iff hden]
    have : ((x.num.toNat : ℚ)) ≤ ((x.num.toNat / x.den : ℕ) + 1) * (x.den : ℚ) := by
      push_cast
      ring_nf
      exact_mod_cast by linarith [hdiv]
    calc (x.num : ℚ) = (x.num.toNat : ℚ) := by exact_mod_cast hnum.symm
      _ ≤ _ := this
      _ = _ := by push_cast; ring

/-- The number of neighbors the pruned range query finds at radius `r`. -/
def rnnCount (T : TreeM α) (q : α) (r : ℚ) : ℕ :=
  (rangeSearch T.data q r T.root).length

/-- Modelled from the spec: the EXPANDING phase of `repeated_rnn::search` —
while the range-query count is 0, double the radius (bounded iteration fuel,
shown sufficient below). -/
def rrExpand (T : TreeM α) (q : α) : ℕ → ℚ → ℚ
  | 0, r => r
  | n + 1, r => if 0 < rnnCount T q r then r else rrExpand T q n (2 * r)

/-- Modelled from the spec: a concrete local-fractal-dimension estimator (the
spec leaves the exact formula open and delegates it to the implementer):
the ratio of the point counts at radius `r` and `r / 2`. -/
def lfdEstimate (T : TreeM α) (q : α) (r : ℚ) : ℚ :=
  (rnnCount T q r : ℚ) / max 1 (rnnCount T q (r / 2) : ℚ)

/-- Modelled from the spec: the CONVERGING growth factor, computed from the
LFD estimate and the deficit `k - count`, capped at a maximum multiplier
of 2 per iteration. -/
def growthFactor (T : TreeM α) (q : α) (k : ℕ) (r : ℚ) : ℚ :=
  min 2 (1 + ((k - rnnCount T q r : ℕ) : ℚ) /
    ((k : ℚ) * lfdEstimate T q r))

/-- Modelled from the spec: the CONVERGING phase — multiply the radius by the
growth factor until the count reaches `k` (capped at the dataset cardinality,
per the spec's promise that `k` exceeding the cardinality yields a short,
valid result). -/
def rrConverge (T : TreeM α) (q : α) (k : ℕ) : ℕ → ℚ → ℚ
  | 0, r => r
  | n + 1, r =>
      if min k T.data.cardinality ≤ rnnCount T q r then r
      else rrConverge T q k n (r * growthFactor T q k r)

/-- The radius that certainly captures the whole dataset: center distance of
the root plus the root radius. -/
def rrAllRadius (T : TreeM α) (q : α) : ℚ :=
  T.data.dist q (T.data.pt T.root.centerIndex) + T.root.radius

/-- The seed radius of repeated-RNN: tree radius over cardinality. -/
def rrSeed (T : TreeM α) : ℚ := T.radius / (T.data.cardinality : ℚ)

/-- Modelled from the spec: `repeated_rnn::search` — seed the radius, expand
by doubling until at least one neighbor is found, converge by LFD-driven
growth until at least `k` are found, then sort ascending and truncate to `k`. -/
def knnRepeatedRnn (T : TreeM α) (q : α) (k : ℕ) : List (ℕ × ℚ) :=
  let r0 := rrSeed T
  let fuel1 := qCeilNat (rrAllRadius T q / r0) + 1
  let fuel2 := k * T.data.cardinality * qCeilNat (rrAllRadius T q / r0) + 1
  let r1 := rrExpand T q fuel1 r0
  let r2 := rrConverge T q k fuel2 r1
  (sortByDist (rangeSearch T.data q r2 T.root)).take k

end RepeatedRnn

section RepeatedRnnProofs

variable {α : Type} [Inhabited α]

theorem rnnCount_eq (T : TreeM α) (q : α) (hm : IsMetricOn T.data.dist)
    (hb : T.root.BoundOk T.data) (r : ℚ) :
    rnnCount T q r = distLeCount T.data q r T.indices := by
  rw [rnnCount, rangeSearch_eq T.data q hm T.root hb r, rangeList_length]
  rfl

theorem rnnCount_mono (T : TreeM α) (q : α) (hm : IsMetricOn T.data.dist)
    (hb : T.root.BoundOk T.data) {r r' : ℚ} (h : r ≤ r') :
    rnnCount T q r ≤ rnnCount T q r' := by
  rw [rnnCount_eq T q hm hb r, rnnCount_eq T q hm hb r']
  apply List.countP_mono_left
  intro x _ hx
  simp only [decide_eq_true_eq] at hx ⊢
  exact le_trans hx h

theorem tree_card_pos (T : TreeM α) (hv : T.Valid) : 0 < T.data.cardinality := by
  have h1 := hv.1.card_pos
  have h2 := hv.2.length_eq
  rw [List.length_range] at h2
  simp only [Cluster.cardinality] at h1
  rw [TreeM.indices] at h2
  omega

theorem rnnCount_le_card (T : TreeM α) (q : α) (hm : IsMetricOn T.data.dist)
    (hv : T.Valid) (r : ℚ) : rnnCount T q r ≤ T.data.cardinality := by
  rw [rnnCount_eq T q hm hv.1.boundOk r, distLeCount]
  have := List.countP_le_length
    (p := fun i => decide (T.data.dist q (T.data.pt i) ≤ r)) (l := T.indices)
  have h2 := hv.2.length_eq
  rw [List.length_range] at h2
  omega

theorem rnnCount_all (T : TreeM α) (q : α) (hm : IsMetricOn T.data.dist)
    (hv : T.Valid) {r : ℚ} (h : rrAllRadius T q ≤ r) :
    rnnCount T q r = T.data.cardinality := by
  rw [rnnCount_eq T q hm hv.1.boundOk r, distLeCount]
  have hall : ∀ i ∈ T.indices,
      (fun i => decide (T.data.dist q (T.data.pt i) ≤ r)) i = true := by
    intro i hi
    simp only [decide_eq_true_eq]
    have := dist_le_dMaxQ T.data q hm hv.1.boundOk i hi
    have heq : T.root.dMaxQ T.data q = rrAllRadius T q := rfl
    rw [heq] at this
    exact le_trans this h
  rw [List.countP_eq_length.mpr hall]
  have h2 := hv.2.length_eq
  rw [List.length_range] at h2
  exact h2

theorem rrExpand_ge_self (T : TreeM α) (q : α) :
    ∀ (n : ℕ) (r : ℚ), 0 ≤ r → r ≤ rrExpand T q n r := by
  intro n
  induction n with
  | zero => intro r _; exact le_refl r
  | succ n ih =>
      intro r hr
      simp only [rrExpand]
      by_cases h : 0 < rnnCount T q r
      · rw [if_pos h]
      · rw [if_neg h]
        have h2 : r ≤ 2 * r := by linarith
        exact le_trans h2 (ih (2 * r) (by linarith))

theorem rrExpand_reach (T : TreeM α) (q : α) :
    ∀ (n : ℕ) (r : ℚ), 0 < rnnCount T q (rrExpand T q n r) ∨
      r * 2 ^ n ≤ rrExpand T q n r := by
  intro n
  induction n with
  | zero => intro r; right; simp [rrExpand]
  | succ n ih =>
      intro r
      simp only [rrExpand]
      by_cases h : 0 < rnnCount T q r
      · rw [if_pos h]; exact Or.inl h
      · rw [if_neg h]
        rcases ih (2 * r) with h2 | h2
        · exact Or.inl h2
        · right
          calc r * 2 ^ (n + 1) = 2 * r * 2 ^ n := by ring
            _ ≤ _ := h2

theorem rrExpand_pos_count (T : TreeM α) (q : α) (hm : IsMetricOn T.data.dist)
    (hv : T.Valid) (hr0 : 0 < rrSeed T) :
    0 < rnnCount T q
      (rrExpand T q (qCeilNat (rrAllRadius T q / rrSeed T) + 1) (rrSeed T)) := by
  set C := qCeilNat (rrAllRadius T q / rrSeed T) with hC
  rcases rrExpand_reach T q (C + 1) (rrSeed T) with h | h
  · exact h
  · have hpow : (C : ℚ) ≤ 2 ^ (C + 1) := by
      have := Nat.lt_two_pow (C + 1)
      have h2 : (C : ℚ) + 1 ≤ ((2 : ℕ) : ℚ) ^ (C + 1) := by
        exact_mod_cast Nat.le_of_lt this
      push_cast at h2
      linarith
    have hceil : rrAllRadius T q / rrSeed T ≤ (C : ℚ) := le_qCeilNat _
    have hreach : rrAllRadius T q ≤ rrSeed T * 2 ^ (C + 1) := by
      have h1 : rrAllRadius T q / rrSeed T ≤ (2 : ℚ) ^ (C + 1) :=
        le_trans hceil hpow
      calc rrAllRadius T q = rrSeed T * (rrAllRadius T q / rrSeed T) := by
            rw [mul_div_cancel₀ _ (ne_of_gt hr0)]
        _ ≤ rrSeed T * 2 ^ (C + 1) :=
            mul_le_mul_of_nonneg_left h1 (le_of_lt hr0)
    have hfinal : rrAllRadius T q ≤ rrExpand T q (C + 1) (rrSeed T) :=
      le_trans hreach h
    rw [rnnCount_all T q hm hv hfinal]
    exact tree_card_pos T hv

end RepeatedRnnProofs

section RepeatedRnnConverge

variable {α : Type} [Inhabited α]

theorem growthFactor_le_two (T : TreeM α) (q : α) (k : ℕ) (r : ℚ) :
    growthFactor T q k r ≤ 2 := min_le_left _ _

theorem growthFactor_ge (T : TreeM α) (q : α) (k : ℕ) (r : ℚ)
    (hm : IsMetricOn T.data.dist) (hv : T.Valid)
    (hpos : 0 < rnnCount T q r) (hlt : rnnCount T q r < k) :
    1 + 1 / ((k : ℚ) * (T.data.cardinality : ℚ)) ≤ growthFactor T q k r := by
  have hcard : rnnCount T q r ≤ T.data.cardinality := rnnCount_le_card T q hm hv r
  have hcard1 : 0 < T.data.cardinality := tree_card_pos T hv
  have hk1 : 0 < k := lt_of_le_of_lt (Nat.zero_le _) hlt
  have hLpos : 0 < lfdEstimate T q r := by
    rw [lfdEstimate]
    apply div_pos
    · exact_mod_cast hpos
    · exact lt_of_lt_of_le zero_lt_one (le_max_left 1 _)
  have hLle : lfdEstimate T q r ≤ (rnnCount T q r : ℚ) := by
    rw [lfdEstimate]
    exact div_le_self (by exact_mod_cast Nat.zero_le _) (le_max_left 1 _)
  have hkL : (0 : ℚ) < (k : ℚ) * lfdEstimate T q r := by
    apply mul_pos _ hLpos
    exact_mod_cast hk1
  have hkLle : (k : ℚ) * lfdEstimate T q r ≤
      (k : ℚ) * (T.data.cardinality : ℚ) := by
    apply mul_le_mul_of_nonneg_left _ (by exact_mod_cast Nat.zero_le k)
    calc lfdEstimate T q r ≤ (rnnCount T q r : ℚ) := hLle
      _ ≤ _ := by exact_mod_cast hcard
  have hdef1 : (1 : ℚ) ≤ ((k - rnnCount T q r : ℕ) : ℚ) := by
    have h1 : 1 ≤ k - rnnCount T q r := by omega
    exact_mod_cast h1
  have hstep1 : 1 / ((k : ℚ) * (T.data.cardinality : ℚ)) ≤
      1 / ((k : ℚ) * lfdEstimate T q r) :=
    one_div_le_one_div_of_le hkL hkLle
  have hstep2 : 1 / ((k : ℚ) * lfdEstimate T q r) ≤
      ((k - rnnCount T q r : ℕ) : ℚ) / ((k : ℚ) * lfdEstimate T q r) :=
    (div_le_div_iff_of_pos_right hkL).mpr hdef1
  rw [growthFactor]
  apply le_min
  · have hone : (1 : ℚ) ≤ (k : ℚ) * (T.data.cardinality : ℚ) := by
      have h1 : 1 ≤ k * T.data.cardinality := Nat.mul_pos hk1 hcard1
      exact_mod_cast h1
    have h2 : 1 / ((k : ℚ) * (T.data.cardinality : ℚ)) ≤ 1 :=
      div_le_one_of_le hone (by positivity)
    linarith
  · have := le_trans hstep1 hstep2
    linarith

theorem growthFactor_ge_one (T : TreeM α) (q : α) (k : ℕ) (r : ℚ)
    (hm : IsMetricOn T.data.dist) (hv : T.Valid)
    (hpos : 0 < rnnCount T q r) (hlt : rnnCount T q r < k) :
    1 ≤ growthFactor T q k r := by
  have h := growthFactor_ge T q k r hm hv hpos hlt
  have h2 : (0 : ℚ) ≤ 1 / ((k : ℚ) * (T.data.cardinality : ℚ)) := by positivity
  linarith

theorem rrConverge_reach (T : TreeM α) (q : α) (k : ℕ)
    (hm : IsMetricOn T.data.dist) (hv : T.Valid) :
    ∀ (n : ℕ) (r : ℚ), 0 < r → 0 < rnnCount T q r →
    min k T.data.cardinality ≤ rnnCount T q (rrConverge T q k n r) ∨
      r * (1 + 1 / ((k : ℚ) * (T.data.cardinality : ℚ))) ^ n ≤
        rrConverge T q k n r := by
  intro n
  induction n with
  | zero => intro r _ _; right; simp [rrConverge]
  | succ n ih =>
      intro r hr hcount
      simp only [rrConverge]
      by_cases h : min k T.data.cardinality ≤ rnnCount T q r
      · rw [if_pos h]; exact Or.inl h
      · rw [if_neg h]
        push_neg at h
        have hltk : rnnCount T q r < k := lt_of_lt_of_le h (min_le_left _ _)
        have hf1 : 1 ≤ growthFactor T q k r :=
          growthFactor_ge_one T q k r hm hv hcount hltk
        have hfe : 1 + 1 / ((k : ℚ) * (T.data.cardinality : ℚ)) ≤
            growthFactor T q k r := growthFactor_ge T q k r hm hv hcount hltk
        have hr' : 0 < r * growthFactor T q k r := by
          apply mul_pos hr (lt_of_lt_of_le zero_lt_one hf1)
        have hrle : r ≤ r * growthFactor T q k r :=
          le_mul_of_one_le_right (le_of_lt hr) hf1
        have hcount' : 0 < rnnCount T q (r * growthFactor T q k r) :=
          lt_of_lt_of_le hcount (rnnCount_mono T q hm hv.1.boundOk hrle)
        rcases ih (r * growthFactor T q k r) hr' hcount' with h2 | h2
        · exact Or.inl h2
        · right
          have hpe : (0 : ℚ) ≤
              (1 + 1 / ((k : ℚ) * (T.data.cardinality : ℚ))) ^ n := by
            positivity
          calc r * (1 + 1 / ((k : ℚ) * (T.data.cardinality : ℚ))) ^ (n + 1)
              = (r * (1 + 1 / ((k : ℚ) * (T.data.cardinality : ℚ)))) *
                (1 + 1 / ((k : ℚ) * (T.data.cardinality : ℚ))) ^ n := by ring
            _ ≤ (r * growthFactor T q k r) *
                (1 + 1 / ((k : ℚ) * (T.data.cardinality : ℚ))) ^ n := by
                apply mul_le_mul_of_nonneg_right _ hpe
                exact mul_le_mul_of_nonneg_left hfe (le_of_lt hr)
            _ ≤ _ := h2

end RepeatedRnnConverge

section RepeatedRnnFinal

variable {α : Type} [Inhabited α]

theorem rrSeed_pos (T : TreeM α) (hv : T.Valid) (hr : 0 < T.root.radius) :
    0 < rrSeed T := by
  rw [rrSeed, TreeM.radius]
  apply div_pos hr
  exact_mod_cast tree_card_pos T hv

theorem rrFinal_count (T : TreeM α) (q : α) (k : ℕ)
    (hm : IsMetricOn T.data.dist) (hv : T.Valid) (hr : 0 < T.root.radius) :
    min k T.data.cardinality ≤ rnnCount T q
      (rrConverge T q k
        (k * T.data.cardinality * qCeilNat (rrAllRadius T q / rrSeed T) + 1)
        (rrExpand T q (qCeilNat (rrAllRadius T q / rrSeed T) + 1) (rrSeed T))) := by
  rcases Nat.eq_zero_or_pos k with rfl | hk
  · simp
  have hr0 : 0 < rrSeed T := rrSeed_pos T hv hr
  set C := qCeilNat (rrAllRadius T q / rrSeed T) with hC
  set r1 := rrExpand T q (C + 1) (rrSeed T) with hr1
  have h1pos : 0 < r1 :=
    lt_of_lt_of_le hr0 (rrExpand_ge_self T q (C + 1) (rrSeed T) (le_of_lt hr0))
  have hc1 : 0 < rnnCount T q r1 := rrExpand_pos_count T q hm hv hr0
  have hcard1 : 0 < T.data.cardinality := tree_card_pos T hv
  rcases rrConverge_reach T q k hm hv (k * T.data.cardinality * C + 1) r1
      h1pos hc1 with h | h
  · exact h
  · set e := 1 / ((k : ℚ) * (T.data.cardinality : ℚ)) with he
    have hepos : 0 < e := by
      rw [he]
      have h1 : (0 : ℚ) < (k : ℚ) * (T.data.cardinality : ℚ) := by
        have := Nat.mul_pos hk hcard1
        exact_mod_cast this
      positivity
    have hbern : 1 + ((k * T.data.cardinality * C + 1 : ℕ) : ℚ) * e ≤
        (1 + e) ^ (k * T.data.cardinality * C + 1) := by
      apply one_add_mul_le_pow
      linarith
    have hmul : (C : ℚ) ≤ ((k * T.data.cardinality * C + 1 : ℕ) : ℚ) * e := by
      have hkc : ((k * T.data.cardinality : ℕ) : ℚ) * e = 1 := by
        rw [he]
        have h1 : ((k * T.data.cardinality : ℕ) : ℚ) =
            (k : ℚ) * (T.data.cardinality : ℚ) := by push_cast; ring
        rw [h1]
        apply mul_one_div_cancel
        have := Nat.mul_pos hk hcard1
        have h2 : (0 : ℚ) < (k : ℚ) * (T.data.cardinality : ℚ) := by
          exact_mod_cast this
        exact ne_of_gt h2
      have hsplit : ((k * T.data.cardinality * C + 1 : ℕ) : ℚ) * e =
          (C : ℚ) * (((k * T.data.cardinality : ℕ) : ℚ) * e) + e := by
        push_cast
        ring
      rw [hsplit, hkc, mul_one]
      linarith
    have hceil : rrAllRadius T q / rrSeed T ≤ (C : ℚ) := by
      rw [hC]
      exact le_qCeilNat _
    have hpow : rrAllRadius T q / rrSeed T ≤
        (1 + e) ^ (k * T.data.cardinality * C + 1) := by
      calc rrAllRadius T q / rrSeed T ≤ (C : ℚ) := hceil
        _ ≤ ((k * T.data.cardinality * C + 1 : ℕ) : ℚ) * e := hmul
        _ ≤ 1 + ((k * T.data.cardinality * C + 1 : ℕ) : ℚ) * e := by linarith
        _ ≤ _ := hbern
    have hreach : rrAllRadius T q ≤
        rrConverge T q k (k * T.data.cardinality * C + 1) r1 := by
      have hstep : rrAllRadius T q ≤ r1 * (1 + e) ^ (k * T.data.cardinality * C + 1) := by
        have hseed : rrAllRadius T q =
            rrSeed T * (rrAllRadius T q / rrSeed T) := by
          rw [mul_div_cancel₀ _ (ne_of_gt hr0)]
        have h1 : rrSeed T * (rrAllRadius T q / rrSeed T) ≤
            rrSeed T * (1 + e) ^ (k * T.data.cardinality * C + 1) :=
          mul_le_mul_of_nonneg_left hpow (le_of_lt hr0)
        have h2 : rrSeed T * (1 + e) ^ (k * T.data.cardinality * C + 1) ≤
            r1 * (1 + e) ^ (k * T.data.cardinality * C + 1) := by
          apply mul_le_mul_of_nonneg_right
            (rrExpand_ge_self T q (C + 1) (rrSeed T) (le_of_lt hr0))
          positivity
        linarith
      exact le_trans hstep h
    rw [rnnCount_all T q hm hv hreach]
    exact min_le_right _ _

theorem knnRepeatedRnn_isKnn (T : TreeM α) (q : α) (k : ℕ)
    (hm : IsMetricOn T.data.dist) (hv : T.Valid) (hr : 0 < T.root.radius) :
    IsKnnResult T.data q k (knnRepeatedRnn T q k) := by
  simp only [knnRepeatedRnn]
  set r2 := rrConverge T q k
    (k * T.data.cardinality * qCeilNat (rrAllRadius T q / rrSeed T) + 1)
    (rrExpand T q (qCeilNat (rrAllRadius T q / rrSeed T) + 1) (rrSeed T)) with hr2
  have hcount : min k T.data.cardinality ≤ rnnCount T q r2 :=
    rrFinal_count T q k hm hv hr
  have hnd : T.indices.Nodup := hv.2.symm.nodup (List.nodup_range _)
  set covered := T.indices.filter
    (fun i => decide (T.data.dist q (T.data.pt i) ≤ r2)) with hcov
  have hrw : rangeSearch T.data q r2 T.root =
      covered.map fun i => (i, T.data.dist q (T.data.pt i)) := by
    rw [rangeSearch_eq T.data q hm T.root hv.1.boundOk r2,
      rangeList_eq_filter_map]
    rfl
  rw [hrw]
  apply isKnnResult_of_dominates
  · exact hnd.filter _
  · intro i hi
    rw [hcov] at hi
    exact List.mem_range.mp (hv.2.subset (List.mem_of_mem_filter hi))
  · constructor
    · have hlen : covered.length = rnnCount T q r2 := by
        rw [hcov, ← List.countP_eq_length_filter,
          rnnCount_eq T q hm hv.1.boundOk r2, distLeCount]
      omega
    · intro v
      rcases le_or_lt v r2 with hvr | hvr
      · have heq : distLeCount T.data q v covered =
            distLeCount T.data q v T.indices := by
          rw [hcov, distLeCount, distLeCount, List.countP_filter]
          apply le_antisymm
          · apply List.countP_mono_left
            intro x _ hx
            simp only [Bool.and_eq_true, decide_eq_true_eq] at hx ⊢
            exact hx.1
          · apply List.countP_mono_left
            intro x _ hx
            simp only [Bool.and_eq_true, decide_eq_true_eq] at hx ⊢
            exact ⟨hx, le_trans hx hvr⟩
        rw [heq, distLeCount, distLeCount, List.Perm.countP_eq _ hv.2]
        exact min_le_right _ _
      · have hfull : distLeCount T.data q v covered = covered.length := by
          rw [distLeCount]
          apply List.countP_eq_length.mpr
          intro a ha
          rw [hcov] at ha
          have := List.of_mem_filter ha
          simp only [decide_eq_true_eq] at this ⊢
          exact le_trans this (le_of_lt hvr)
        have hlen : covered.length = rnnCount T q r2 := by
          rw [hcov, ← List.countP_eq_length_filter,
            rnnCount_eq T q hm hv.1.boundOk r2, distLeCount]
        have hrange : distLeCount T.data q v (List.range T.data.cardinality) ≤
            T.data.cardinality := by
          rw [distLeCount]
          have := List.countP_le_length
            (p := fun i => decide (T.data.dist q (T.data.pt i) ≤ v))
            (l := List.range T.data.cardinality)
          simpa using this
        omega

end RepeatedRnnFinal

section Sieve

variable {α : Type} [Inhabited α]

/-- Modelled from the spec: a grain of the sieve working set — either a
resolved instance (weight 1, exact distance) or an unresolved cluster
(weight = cluster cardinality, distance known only as a bound). -/
inductive Grain : Type where
  | inst (i : ℕ) (d : ℚ)
  | clust (c : Cluster)

/-- The weight of a grain. -/
def Grain.weight : Grain → ℕ
  | .inst _ _ => 1
  | .clust c => c.cardinality

/-- The `d_min` of a grain (exact distance for instance grains). -/
def Grain.gdmin (D : DataSet α) (q : α) : Grain → ℚ
  | .inst _ d => d
  | .clust c => c.dMinQ D q

/-- The `d_max` of a grain (exact distance for instance grains). -/
def Grain.gdmax (D : DataSet α) (q : α) : Grain → ℚ
  | .inst _ d => d
  | .clust c => c.dMaxQ D q

/-- The dataset indices a grain stands for. -/
def Grain.indicesOf : Grain → List ℕ
  | .inst i _ => [i]
  | .clust c => c.instanceIndices

/-- Correctness of a single grain: instance grains carry the exact distance,
cluster grains satisfy the radius invariant. -/
def GrainOk (D : DataSet α) (q : α) : Grain → Prop
  | .inst i d => d = D.dist q (D.pt i)
  | .clust c => c.BoundOk D

/-- All dataset indices covered by a grain set. -/
def coveredOf (gs : List Grain) : List ℕ := gs.flatMap Grain.indicesOf

/-- Total weight of a grain set. -/
def totalWeight (gs : List Grain) : ℕ := (gs.map Grain.weight).sum

/-- Cumulative weight of the grains whose `d_max` is at most `v`. -/
def weightAtMost (D : DataSet α) (q : α) (v : ℚ) (gs : List Grain) : ℕ :=
  ((gs.filter fun g => decide (g.gdmax D q ≤ v)).map Grain.weight).sum

/-- Ascending order of grains by `d_max`. -/
def grainLe (D : DataSet α) (q : α) (a b : Grain) : Prop :=
  a.gdmax D q ≤ b.gdmax D q

instance (D : DataSet α) (q : α) : DecidableRel (grainLe D q) :=
  fun a b => inferInstanceAs (Decidable (a.gdmax D q ≤ b.gdmax D q))

instance (D : DataSet α) (q : α) : IsTotal Grain (grainLe D q) :=
  ⟨fun a b => le_total (a.gdmax D q) (b.gdmax D q)⟩

instance (D : DataSet α) (q : α) : IsTrans Grain (grainLe D q) :=
  ⟨fun _ _ _ h1 h2 => le_trans h1 h2⟩

/-- Walk the `d_max`-sorted grains, accumulating weight; return the `d_max`
at which the cumulative weight first reaches `k` (the last `d_max` seen if it
never does). -/
def thetaGo (D : DataSet α) (q : α) : ℕ → List Grain → ℚ → ℚ
  | _, [], acc => acc
  | k, g :: gs, _ =>
      if k ≤ g.weight then g.gdmax D q
      else thetaGo D q (k - g.weight) gs (g.gdmax D q)

/-- Modelled from the spec: the sieve threshold — the smallest distance `θ`
such that the cumulative weight of all grains with `d_max ≤ θ` is at least
`k`, computed by a weighted selection over grains ordered by `d_max`. -/
def threshold (D : DataSet α) (q : α) (k : ℕ) (gs : List Grain) : ℚ :=
  thetaGo D q k (List.insertionSort (grainLe D q) gs) 0

/-- One pruning step of a sieve round: grains whose `d_min` exceeds the
threshold are discarded. -/
def sievePrune (D : DataSet α) (q : α) (k : ℕ) (gs : List Grain) : List Grain :=
  gs.filter fun g => decide (g.gdmin D q ≤ threshold D q k gs)

/-- Modelled from the spec (V1): subdivision — internal cluster grains are
replaced by their two children, leaf cluster grains by their member instances
with exact distances; instance grains persist. Centers are not treated
separately. -/
def subdivideV1 (D : DataSet α) (q : α) : Grain → List Grain
  | .inst i d => [.inst i d]
  | .clust (.leaf _ _ insts) => insts.map fun i => .inst i (D.dist q (D.pt i))
  | .clust (.node _ _ l r) => [.clust l, .clust r]

/-- Remove one occurrence of index `i` from the leaf instance lists of a
cluster (sieve V2 separates centers out of their clusters). -/
def Cluster.removeIdx : Cluster → ℕ → Cluster
  | .leaf c r insts, i => .leaf c r (insts.erase i)
  | .node c r l rr, i =>
      if i ∈ l.instanceIndices then .node c r (l.removeIdx i) rr
      else .node c r l (rr.removeIdx i)

/-- Modelled from the spec (V2): a cluster enters the grain set with its
center separated into its own instance grain (its distance is known exactly)
and the remainder as a cluster grain. -/
def mkGrainsV2 (D : DataSet α) (q : α) (c : Cluster) : List Grain :=
  if c.centerIndex ∈ c.instanceIndices then
    [.inst c.centerIndex (D.dist q (D.pt c.centerIndex)),
      .clust (c.removeIdx c.centerIndex)]
  else [.clust c]

/-- Modelled from the spec (V2): subdivision with center separation. -/
def subdivideV2 (D : DataSet α) (q : α) : Grain → List Grain
  | .inst i d => [.inst i d]
  | .clust (.leaf _ _ insts) => insts.map fun i => .inst i (D.dist q (D.pt i))
  | .clust (.node _ _ l r) => mkGrainsV2 D q l ++ mkGrainsV2 D q r

/-- One sieve round: threshold computation, pruning, subdivision. -/
def sieveRound (D : DataSet α) (q : α) (k : ℕ) (subdiv : Grain → List Grain)
    (gs : List Grain) : List Grain :=
  (sievePrune D q k gs).flatMap subdiv

/-- Whether every grain is a resolved instance grain. -/
def allInst (gs : List Grain) : Bool :=
  gs.all fun g => match g with | .inst _ _ => true | .clust _ => false

/-- The sieve main loop: rounds are repeated until the grain set contains
only instance grains (the fuel is shown sufficient below). -/
def sieveLoop (D : DataSet α) (q : α) (k : ℕ) (subdiv : Grain → List Grain) :
    ℕ → List Grain → List Grain
  | 0, gs => gs
  | n + 1, gs =>
      if allInst gs then gs
      else sieveLoop D q k subdiv n (sieveRound D q k subdiv gs)

/-- The (index, exact distance) pairs of the instance grains of a grain set. -/
def instPairs (gs : List Grain) : List (ℕ × ℚ) :=
  gs.filterMap fun g => match g with | .inst i d => some (i, d) | .clust _ => none

/-- Modelled from the spec: `sieve_v1::search` — seed with the root cluster,
iterate threshold/prune/subdivide rounds until only instance grains remain,
return them sorted by exact distance, truncated to `k`. -/
def knnSieveV1 (T : TreeM α) (q : α) (k : ℕ) : List (ℕ × ℚ) :=
  let gs := sieveLoop T.data q k (subdivideV1 T.data q) (T.root.cheight + 2)
    [.clust T.root]
  (sortByDist (instPairs gs)).take k

/-- Modelled from the spec: `sieve_v2::search` — seed with the root's center
as an instance grain plus the remainder as a cluster grain, iterate rounds
with center separation, return the instance grains sorted, truncated to `k`. -/
def knnSieveV2 (T : TreeM α) (q : α) (k : ℕ) : List (ℕ × ℚ) :=
  let gs := sieveLoop T.data q k (subdivideV2 T.data q) (T.root.cheight + 2)
    (mkGrainsV2 T.data q T.root)
  (sortByDist (instPairs gs)).take k

end Sieve

section ThresholdLemmas

variable {α : Type} [Inhabited α]

theorem thetaGo_mem (D : DataSet α) (q : α) :
    ∀ (gs : List Grain) (k : ℕ) (acc : ℚ), 1 ≤ k → k ≤ totalWeight gs →
    ∃ g ∈ gs, thetaGo D q k gs acc = g.gdmax D q := by
  intro gs
  induction gs with
  | nil =>
      intro k acc hk hw
      simp only [totalWeight, List.map_nil, List.sum_nil] at hw
      omega
  | cons g gs ih =>
      intro k acc hk hw
      simp only [thetaGo]
      by_cases h : k ≤ g.weight
      · rw [if_pos h]
        exact ⟨g, List.mem_cons_self g gs, rfl⟩
      · rw [if_neg h]
        have hw' : k - g.weight ≤ totalWeight gs := by
          simp only [totalWeight, List.map_cons, List.sum_cons] at hw
          simp only [totalWeight]
          omega
        rcases ih (k - g.weight) (g.gdmax D q) (by omega) hw' with ⟨g', hg', heq⟩
        exact ⟨g', List.mem_cons_of_mem g hg', heq⟩

theorem thetaGo_acc_le (D : DataSet α) (q : α) :
    ∀ (gs : List Grain), List.Sorted (grainLe D q) gs → ∀ (k : ℕ) (acc : ℚ),
    (∀ g ∈ gs, acc ≤ g.gdmax D q) → acc ≤ thetaGo D q k gs acc := by
  intro gs
  induction gs with
  | nil => intro _ k acc _; simp [thetaGo]
  | cons g gs ih =>
      intro hs k acc hacc
      simp only [thetaGo]
      by_cases h : k ≤ g.weight
      · rw [if_pos h]
        exact hacc g (List.mem_cons_self g gs)
      · rw [if_neg h]
        have hs' := List.pairwise_cons.mp hs
        refine le_trans (hacc g (List.mem_cons_self g gs)) ?_
        exact ih hs'.2 (k - g.weight) (g.gdmax D q) fun g' hg' => hs'.1 g' hg'

theorem thetaGo_ge_all (D : DataSet α) (q : α) :
    ∀ (gs : List Grain), List.Sorted (grainLe D q) gs → ∀ (k : ℕ) (acc : ℚ),
    totalWeight gs < k → ∀ g ∈ gs, g.gdmax D q ≤ thetaGo D q k gs acc := by
  intro gs
  induction gs with
  | nil => intro _ k acc _ g hg; simp at hg
  | cons g gs ih =>
      intro hs k acc hw g' hg'
      have hs' := List.pairwise_cons.mp hs
      have hwc : g.weight + totalWeight gs < k := by
        simp only [totalWeight, List.map_cons, List.sum_cons] at hw
        simpa [totalWeight] using hw
      have h : ¬ k ≤ g.weight := by omega
      simp only [thetaGo]
      rw [if_neg h]
      rcases List.mem_cons.mp hg' with rfl | hg'
      · exact thetaGo_acc_le D q gs hs'.2 (k - g'.weight) (g'.gdmax D q)
          fun g'' hg'' => hs'.1 g'' hg''
      · exact ih hs'.2 (k - g.weight) (g.gdmax D q) (by omega) g' hg'

theorem weightAtMost_cons_of_le (D : DataSet α) (q : α) {g : Grain} {v : ℚ}
    (gs : List Grain) (h : g.gdmax D q ≤ v) :
    weightAtMost D q v (g :: gs) = g.weight + weightAtMost D q v gs := by
  simp [weightAtMost, List.filter_cons, h]

theorem weightAtMost_eq_zero (D : DataSet α) (q : α) {gs : List Grain} {v : ℚ}
    (h : ∀ g ∈ gs, ¬ g.gdmax D q ≤ v) : weightAtMost D q v gs = 0 := by
  rw [weightAtMost, List.filter_eq_nil_iff.mpr]
  · rfl
  · intro g hg
    simpa using h g hg

theorem weightAtMost_coverage (D : DataSet α) (q : α) :
    ∀ (gs : List Grain), List.Sorted (grainLe D q) gs → ∀ (k : ℕ) (acc : ℚ),
    1 ≤ k → k ≤ totalWeight gs →
    k ≤ weightAtMost D q (thetaGo D q k gs acc) gs := by
  intro gs
  induction gs with
  | nil =>
      intro _ k acc hk hw
      simp only [totalWeight, List.map_nil, List.sum_nil] at hw
      omega
  | cons g gs ih =>
      intro hs k acc hk hw
      have hs' := List.pairwise_cons.mp hs
      simp only [thetaGo]
      by_cases h : k ≤ g.weight
      · rw [if_pos h]
        rw [weightAtMost_cons_of_le D q gs (le_refl _)]
        omega
      · rw [if_neg h]
        have hw' : k - g.weight ≤ totalWeight gs := by
          simp only [totalWeight, List.map_cons, List.sum_cons] at hw
          simp only [totalWeight]
          omega
        have hk' : 1 ≤ k - g.weight := by omega
        have hcov := ih hs'.2 (k - g.weight) (g.gdmax D q) hk' hw'
        rcases thetaGo_mem D q gs (k - g.weight) (g.gdmax D q) hk' hw'
          with ⟨g', hg', heq⟩
        have hle : g.gdmax D q ≤ thetaGo D q (k - g.weight) gs (g.gdmax D q) := by
          rw [heq]
          exact hs'.1 g' hg'
        rw [weightAtMost_cons_of_le D q gs hle]
        omega

theorem thetaGo_min (D : DataSet α) (q : α) :
    ∀ (gs : List Grain), List.Sorted (grainLe D q) gs → ∀ (k : ℕ) (acc v : ℚ),
    1 ≤ k → k ≤ weightAtMost D q v gs → thetaGo D q k gs acc ≤ v := by
  intro gs
  induction gs with
  | nil =>
      intro _ k acc v hk hwv
      simp only [weightAtMost, List.filter_nil, List.map_nil, List.sum_nil] at hwv
      omega
  | cons g gs ih =>
      intro hs k acc v hk hwv
      have hs' := List.pairwise_cons.mp hs
      by_cases hg : g.gdmax D q ≤ v
      · simp only [thetaGo]
        by_cases h : k ≤ g.weight
        · rw [if_pos h]
          exact hg
        · rw [if_neg h]
          rw [weightAtMost_cons_of_le D q gs hg] at hwv
          exact ih hs'.2 (k - g.weight) (g.gdmax D q) v (by omega) (by omega)
      · exfalso
        have hzero : weightAtMost D q v (g :: gs) = 0 := by
          apply weightAtMost_eq_zero
          intro g' hg'
          rcases List.mem_cons.mp hg' with rfl | hg'
          · exact hg
          · intro hc
            exact hg (le_trans (hs'.1 g' hg') hc)
        omega

theorem totalWeight_perm {gs gs' : List Grain} (h : gs.Perm gs') :
    totalWeight gs = totalWeight gs' := by
  rw [totalWeight, totalWeight, (h.map Grain.weight).sum_eq]

theorem weightAtMost_perm (D : DataSet α) (q : α) (v : ℚ)
    {gs gs' : List Grain} (h : gs.Perm gs') :
    weightAtMost D q v gs = weightAtMost D q v gs' := by
  rw [weightAtMost, weightAtMost,
    ((h.filter _).map Grain.weight).sum_eq]

theorem threshold_coverage (D : DataSet α) (q : α) (k : ℕ) (gs : List Grain)
    (hk : 1 ≤ k) (hw : k ≤ totalWeight gs) :
    k ≤ weightAtMost D q (threshold D q k gs) gs := by
  have hperm := List.perm_insertionSort (grainLe D q) gs
  rw [threshold, weightAtMost_perm D q _ hperm.symm]
  apply weightAtMost_coverage D q _ (List.sorted_insertionSort (grainLe D q) gs)
    k 0 hk
  rw [totalWeight_perm hperm]
  exact hw

theorem threshold_min (D : DataSet α) (q : α) (k : ℕ) (gs : List Grain)
    (hk : 1 ≤ k) (v : ℚ) (hv : k ≤ weightAtMost D q v gs) :
    threshold D q k gs ≤ v := by
  have hperm := List.perm_insertionSort (grainLe D q) gs
  rw [threshold]
  apply thetaGo_min D q _ (List.sorted_insertionSort (grainLe D q) gs) k 0 v hk
  rw [weightAtMost_perm D q v hperm]
  exact hv

theorem threshold_keeps_all (D : DataSet α) (q : α) (k : ℕ) (gs : List Grain)
    (hw : totalWeight gs < k) :
    ∀ g ∈ gs, g.gdmax D q ≤ threshold D q k gs := by
  intro g hg
  have hperm := List.perm_insertionSort (grainLe D q) gs
  rw [threshold]
  apply thetaGo_ge_all D q _ (List.sorted_insertionSort (grainLe D q) gs) k 0
  · rw [totalWeight_perm hperm]
    exact hw
  · exact hperm.mem_iff.mpr hg

end ThresholdLemmas

section GrainLemmas

variable {α : Type} [Inhabited α]

/-- Depth measure of a grain, bounding the number of sieve rounds it can
survive. -/
def grainDepth : Grain → ℕ
  | .inst _ _ => 0
  | .clust c => c.cheight + 1

theorem Grain.weight_eq_length (g : Grain) : g.weight = g.indicesOf.length := by
  cases g with
  | inst i d => rfl
  | clust c => rfl

theorem totalWeight_eq_covered_length (gs : List Grain) :
    totalWeight gs = (coveredOf gs).length := by
  rw [coveredOf, List.length_flatMap, totalWeight]
  congr 1
  apply List.map_congr_left
  intro g _
  rw [Grain.weight_eq_length]
  rfl

theorem grain_dist_bounds (D : DataSet α) (q : α) {g : Grain}
    (hm : IsMetricOn D.dist) (hok : GrainOk D q g) :
    ∀ i ∈ g.indicesOf, g.gdmin D q ≤ D.dist q (D.pt i) ∧
      D.dist q (D.pt i) ≤ g.gdmax D q := by
  cases g with
  | inst i d =>
      intro j hj
      simp only [Grain.indicesOf, List.mem_singleton] at hj
      subst hj
      simp only [GrainOk] at hok
      subst hok
      exact ⟨le_refl _, le_refl _⟩
  | clust c =>
      intro j hj
      simp only [GrainOk] at hok
      exact ⟨dMinQ_le_dist D q hm hok j hj, dist_le_dMaxQ D q hm hok j hj⟩

theorem grain_dmin_le_dmax (D : DataSet α) (q : α) {g : Grain}
    (hm : IsMetricOn D.dist) (hok : GrainOk D q g) :
    g.gdmin D q ≤ g.gdmax D q := by
  cases g with
  | inst i d => exact le_refl _
  | clust c =>
      simp only [GrainOk] at hok
      exact dMinQ_le_dMaxQ D q hm hok

theorem coveredOf_perm : ∀ {gs gs' : List Grain}, gs.Perm gs' →
    (coveredOf gs).Perm (coveredOf gs') := by
  intro gs gs' h
  induction h with
  | nil => exact List.Perm.refl _
  | cons x h ih =>
      simp only [coveredOf, List.flatMap_cons]
      exact List.Perm.append_left _ ih
  | swap x y l =>
      simp only [coveredOf, List.flatMap_cons]
      rw [← List.append_assoc, ← List.append_assoc]
      exact List.Perm.append_right _ (List.perm_append_comm)
  | trans h1 h2 ih1 ih2 => exact ih1.trans ih2

theorem coveredOf_filter_sublist (p : Grain → Bool) :
    ∀ (gs : List Grain), (coveredOf (gs.filter p)).Sublist (coveredOf gs) := by
  intro gs
  induction gs with
  | nil => simp [coveredOf]
  | cons g gs ih =>
      rw [List.filter_cons]
      by_cases h : p g
      · rw [if_pos h]
        simp only [coveredOf, List.flatMap_cons]
        exact List.Sublist.append_left ih _
      · rw [if_neg (by simpa using h)]
        simp only [coveredOf, List.flatMap_cons]
        exact ih.trans (List.sublist_append_right _ _)

theorem coveredOf_append (gs gs' : List Grain) :
    coveredOf (gs ++ gs') = coveredOf gs ++ coveredOf gs' := by
  simp [coveredOf, List.flatMap_append]

theorem coveredOf_flatMap_perm (subdiv : Grain → List Grain)
    (hperm : ∀ g : Grain, (coveredOf (subdiv g)).Perm g.indicesOf) :
    ∀ (gs : List Grain), (coveredOf (gs.flatMap subdiv)).Perm (coveredOf gs) := by
  intro gs
  induction gs with
  | nil => exact List.Perm.refl _
  | cons g gs ih =>
      simp only [List.flatMap_cons, coveredOf_append]
      simp only [coveredOf, List.flatMap_cons]
      exact List.Perm.append (hperm g) ih

/-- The invariant the sieve maintains over its grain set. -/
def SieveInv (D : DataSet α) (q : α) (k : ℕ) (gs : List Grain) : Prop :=
  (∀ g ∈ gs, GrainOk D q g) ∧ (coveredOf gs).Nodup ∧
  (∀ i ∈ coveredOf gs, i < D.cardinality) ∧ Dominates D q k (coveredOf gs)

theorem dominates_zero (D : DataSet α) (q : α) (l : List ℕ) :
    Dominates D q 0 l := by
  constructor
  · simp
  · intro v
    simp

theorem dominates_perm (D : DataSet α) (q : α) (k : ℕ) {l l' : List ℕ}
    (h : l.Perm l') (hd : Dominates D q k l) : Dominates D q k l' := by
  constructor
  · rw [← h.length_eq]
    exact hd.1
  · intro v
    have h2 := hd.2 v
    simp only [distLeCount] at h2 ⊢
    rw [← List.Perm.countP_eq _ h]
    exact h2

end GrainLemmas

section PruneLemmas

variable {α : Type} [Inhabited α]

theorem sievePrune_eq_of_underweight (D : DataSet α) (q : α) (k : ℕ)
    (gs : List Grain) (hm : IsMetricOn D.dist)
    (hok : ∀ g ∈ gs, GrainOk D q g) (hw : totalWeight gs < k) :
    sievePrune D q k gs = gs := by
  rw [sievePrune, List.filter_eq_self]
  intro g hg
  simp only [decide_eq_true_eq]
  exact le_trans (grain_dmin_le_dmax D q hm (hok g hg))
    (threshold_keeps_all D q k gs hw g hg)

theorem sievePrune_dominates (D : DataSet α) (q : α) (k : ℕ) (gs : List Grain)
    (hm : IsMetricOn D.dist) (hok : ∀ g ∈ gs, GrainOk D q g)
    (hdom : Dominates D q k (coveredOf gs)) :
    Dominates D q k (coveredOf (sievePrune D q k gs)) := by
  rcases Nat.eq_zero_or_pos k with rfl | hk
  · exact dominates_zero D q _
  rcases lt_or_le (totalWeight gs) k with hw | hw
  · rw [sievePrune_eq_of_underweight D q k gs hm hok hw]
    exact hdom
  · set th := threshold D q k gs with hth
    have hcov : k ≤ weightAtMost D q th gs := threshold_coverage D q k gs hk hw
    have hWk : weightAtMost D q th (sievePrune D q k gs) =
        weightAtMost D q th gs := by
      rw [sievePrune, weightAtMost, weightAtMost, List.filter_filter]
      congr 2
      apply List.filter_congr
      intro g hg
      by_cases h : g.gdmax D q ≤ th
      · have h2 : g.gdmin D q ≤ th :=
          le_trans (grain_dmin_le_dmax D q hm (hok g hg)) h
        simp [h, h2, hth]
      · simp [h, hth]
    set S := (sievePrune D q k gs).filter
      (fun g => decide (g.gdmax D q ≤ th)) with hS
    have hSwt : totalWeight S = weightAtMost D q th (sievePrune D q k gs) := by
      rw [hS, totalWeight, weightAtMost]
    have hkS : k ≤ totalWeight S := by
      rw [hSwt, hWk]
      exact hcov
    have hSin : ∀ i ∈ coveredOf S, D.dist q (D.pt i) ≤ th := by
      intro i hi
      rcases List.mem_flatMap.mp hi with ⟨g, hgS, hig⟩
      have hgk : g ∈ sievePrune D q k gs := by
        rw [hS] at hgS
        exact List.mem_of_mem_filter hgS
      have hgg : g ∈ gs := by
        rw [sievePrune] at hgk
        exact List.mem_of_mem_filter hgk
      have hmax : g.gdmax D q ≤ th := by
        rw [hS] at hgS
        simpa using List.of_mem_filter hgS
      exact le_trans ((grain_dist_bounds D q hm (hok g hgg)) i hig).2 hmax
    have hdropped : ∀ i ∈ coveredOf
        (gs.filter fun g => !(decide (g.gdmin D q ≤ th))),
        th < D.dist q (D.pt i) := by
      intro i hi
      rcases List.mem_flatMap.mp hi with ⟨g, hgd, hig⟩
      have hgg : g ∈ gs := List.mem_of_mem_filter hgd
      have hmin : ¬ (g.gdmin D q ≤ th) := by
        have := List.of_mem_filter hgd
        simpa using this
      exact lt_of_lt_of_le (not_le.mp hmin)
        ((grain_dist_bounds D q hm (hok g hgg)) i hig).1
    have hsplit : (coveredOf (sievePrune D q k gs) ++ coveredOf
        (gs.filter fun g => !(decide (g.gdmin D q ≤ th)))).Perm
        (coveredOf gs) := by
      rw [← coveredOf_append]
      apply coveredOf_perm
      rw [sievePrune, hth]
      exact List.filter_append_perm _ gs
    have hlenS : (coveredOf S).length = totalWeight S :=
      (totalWeight_eq_covered_length S).symm
    have hSsub : (coveredOf S).Sublist (coveredOf (sievePrune D q k gs)) := by
      rw [hS]
      exact coveredOf_filter_sublist _ _
    constructor
    · have h1 : totalWeight S ≤ totalWeight (sievePrune D q k gs) := by
        rw [totalWeight_eq_covered_length, totalWeight_eq_covered_length]
        exact hSsub.length_le
      rw [← totalWeight_eq_covered_length]
      have := min_le_left k D.cardinality
      omega
    · intro v
      rcases le_or_lt th v with hv | hv
      · have h1 : distLeCount D q v (coveredOf S) = (coveredOf S).length := by
          rw [distLeCount]
          apply List.countP_eq_length.mpr
          intro i hi
          simp only [decide_eq_true_eq]
          exact le_trans (hSin i hi) hv
        have h2 : distLeCount D q v (coveredOf S) ≤
            distLeCount D q v (coveredOf (sievePrune D q k gs)) := by
          rw [distLeCount, distLeCount]
          exact List.Sublist.countP_le _ hSsub
        have h3 : distLeCount D q v (List.range D.cardinality) ≤
            D.cardinality := by
          rw [distLeCount]
          have := List.countP_le_length
            (p := fun i => decide (D.dist q (D.pt i) ≤ v))
            (l := List.range D.cardinality)
          simpa using this
        omega
      · have h0 : distLeCount D q v (coveredOf gs) =
            distLeCount D q v (coveredOf (sievePrune D q k gs)) +
            distLeCount D q v (coveredOf
              (gs.filter fun g => !(decide (g.gdmin D q ≤ th)))) := by
          rw [distLeCount, distLeCount, distLeCount,
            ← List.Perm.countP_eq _ hsplit, List.countP_append]
        have h1 : distLeCount D q v (coveredOf
            (gs.filter fun g => !(decide (g.gdmin D q ≤ th)))) = 0 := by
          rw [distLeCount]
          apply List.countP_eq_zero.mpr
          intro i hi
          simp only [decide_eq_true_eq]
          intro hc
          exact absurd hc (not_le.mpr (lt_trans hv (hdropped i hi)))
        have h2 := hdom.2 v
        omega

theorem sievePrune_inv (D : DataSet α) (q : α) (k : ℕ) (gs : List Grain)
    (hm : IsMetricOn D.dist) (hinv : SieveInv D q k gs) :
    SieveInv D q k (sievePrune D q k gs) := by
  have hsub : (coveredOf (sievePrune D q k gs)).Sublist (coveredOf gs) := by
    rw [sievePrune]
    exact coveredOf_filter_sublist _ _
  refine ⟨?_, ?_, ?_, ?_⟩
  · intro g hg
    rw [sievePrune] at hg
    exact hinv.1 g (List.mem_of_mem_filter hg)
  · exact List.Nodup.sublist hsub hinv.2.1
  · intro i hi
    exact hinv.2.2.1 i (hsub.subset hi)
  · exact sievePrune_dominates D q k gs hm hinv.1 hinv.2.2.2

end PruneLemmas

section SubdivideLemmas

variable {α : Type} [Inhabited α]

theorem Cluster.instanceIndices_removeIdx : ∀ (c : Cluster) (i : ℕ),
    (c.removeIdx i).instanceIndices = c.instanceIndices.erase i := by
  intro c i
  induction c with
  | leaf ctr r insts => rfl
  | node ctr r l rr ihl ihr =>
      simp only [Cluster.removeIdx]
      by_cases h : i ∈ l.instanceIndices
      · rw [if_pos h]
        simp only [Cluster.instanceIndices]
        rw [ihl, List.erase_append_left _ h]
      · rw [if_neg h]
        simp only [Cluster.instanceIndices]
        rw [ihr, List.erase_append_right _ h]

theorem Cluster.removeIdx_boundOk (D : DataSet α) :
    ∀ {c : Cluster}, c.BoundOk D → ∀ (i : ℕ), (c.removeIdx i).BoundOk D := by
  intro c
  induction c with
  | leaf ctr r insts =>
      intro hb i
      exact ⟨hb.1, fun j hj => hb.2 j (List.erase_subset _ _ hj)⟩
  | node ctr r l rr ihl ihr =>
      intro hb i
      simp only [Cluster.removeIdx]
      by_cases h : i ∈ l.instanceIndices
      · rw [if_pos h]
        refine ⟨⟨hb.1.1, ?_⟩, ihl hb.2.1 i, hb.2.2⟩
        intro j hj
        apply hb.1.2 j
        simp only [Cluster.instanceIndices, Cluster.instanceIndices_removeIdx]
          at hj ⊢
        rcases List.mem_append.mp hj with hj | hj
        · exact List.mem_append.mpr (Or.inl (List.erase_subset _ _ hj))
        · exact List.mem_append.mpr (Or.inr hj)
      · rw [if_neg h]
        refine ⟨⟨hb.1.1, ?_⟩, hb.2.1, ihr hb.2.2 i⟩
        intro j hj
        apply hb.1.2 j
        simp only [Cluster.instanceIndices, Cluster.instanceIndices_removeIdx]
          at hj ⊢
        rcases List.mem_append.mp hj with hj | hj
        · exact List.mem_append.mpr (Or.inl hj)
        · exact List.mem_append.mpr (Or.inr (List.erase_subset _ _ hj))

theorem Cluster.removeIdx_cheight : ∀ (c : Cluster) (i : ℕ),
    (c.removeIdx i).cheight = c.cheight := by
  intro c i
  induction c with
  | leaf ctr r insts => rfl
  | node ctr r l rr ihl ihr =>
      simp only [Cluster.removeIdx]
      by_cases h : i ∈ l.instanceIndices
      · rw [if_pos h]
        simp only [Cluster.cheight, ihl]
      · rw [if_neg h]
        simp only [Cluster.cheight, ihr]

theorem coveredOf_singleton (g : Grain) : coveredOf [g] = g.indicesOf := by
  simp [coveredOf]

theorem flatMap_id_singleton : ∀ (l : List ℕ), (l.flatMap fun i => [i]) = l := by
  intro l
  induction l with
  | nil => rfl
  | cons x xs ih => simp [List.flatMap_cons, ih]

theorem mkGrainsV2_perm (D : DataSet α) (q : α) (c : Cluster) :
    (coveredOf (mkGrainsV2 D q c)).Perm c.instanceIndices := by
  rw [mkGrainsV2]
  by_cases h : c.centerIndex ∈ c.instanceIndices
  · rw [if_pos h]
    simp only [coveredOf, List.flatMap_cons, List.flatMap_nil, List.append_nil,
      Grain.indicesOf, Cluster.instanceIndices_removeIdx]
    exact (List.perm_cons_erase h).symm
  · rw [if_neg h]
    rw [coveredOf_singleton]
    exact List.Perm.refl _

theorem mkGrainsV2_ok (D : DataSet α) (q : α) (c : Cluster)
    (hb : c.BoundOk D) : ∀ g ∈ mkGrainsV2 D q c, GrainOk D q g := by
  intro g hg
  rw [mkGrainsV2] at hg
  by_cases h : c.centerIndex ∈ c.instanceIndices
  · rw [if_pos h] at hg
    rcases List.mem_cons.mp hg with rfl | hg
    · rfl
    · rcases List.mem_singleton.mp hg with rfl
      exact Cluster.removeIdx_boundOk D hb _
  · rw [if_neg h] at hg
    rcases List.mem_singleton.mp hg with rfl
    exact hb

theorem subdivideV1_perm (D : DataSet α) (q : α) :
    ∀ (g : Grain), (coveredOf (subdivideV1 D q g)).Perm g.indicesOf := by
  intro g
  cases g with
  | inst i d => exact List.Perm.refl _
  | clust c =>
      cases c with
      | leaf ctr r insts =>
          simp only [subdivideV1, coveredOf, List.flatMap_map]
          rw [show (fun a => Grain.indicesOf (Grain.inst a (D.dist q (D.pt a)))) =
            (fun a : ℕ => [a]) from rfl, flatMap_id_singleton]
          exact List.Perm.refl _
      | node ctr r l rr =>
          simp only [subdivideV1, coveredOf, List.flatMap_cons, List.flatMap_nil,
            List.append_nil, Grain.indicesOf, Cluster.instanceIndices]
          exact List.Perm.refl _

theorem subdivideV1_ok (D : DataSet α) (q : α) :
    ∀ (g : Grain), GrainOk D q g → ∀ g' ∈ subdivideV1 D q g, GrainOk D q g' := by
  intro g hok g' hg'
  cases g with
  | inst i d =>
      rcases List.mem_singleton.mp hg' with rfl
      exact hok
  | clust c =>
      cases c with
      | leaf ctr r insts =>
          simp only [subdivideV1] at hg'
          rcases List.mem_map.mp hg' with ⟨i, _, rfl⟩
          rfl
      | node ctr r l rr =>
          simp only [subdivideV1] at hg'
          rcases List.mem_cons.mp hg' with rfl | hg'
          · exact hok.left
          · rcases List.mem_singleton.mp hg' with rfl
            exact hok.right

theorem subdivideV2_perm (D : DataSet α) (q : α) :
    ∀ (g : Grain), (coveredOf (subdivideV2 D q g)).Perm g.indicesOf := by
  intro g
  cases g with
  | inst i d => exact List.Perm.refl _
  | clust c =>
      cases c with
      | leaf ctr r insts =>
          simp only [subdivideV2, coveredOf, List.flatMap_map]
          rw [show (fun a => Grain.indicesOf (Grain.inst a (D.dist q (D.pt a)))) =
            (fun a : ℕ => [a]) from rfl, flatMap_id_singleton]
          exact List.Perm.refl _
      | node ctr r l rr =>
          simp only [subdivideV2]
          rw [coveredOf_append]
          exact List.Perm.append (mkGrainsV2_perm D q l) (mkGrainsV2_perm D q rr)

theorem subdivideV2_ok (D : DataSet α) (q : α) :
    ∀ (g : Grain), GrainOk D q g → ∀ g' ∈ subdivideV2 D q g, GrainOk D q g' := by
  intro g hok g' hg'
  cases g with
  | inst i d =>
      rcases List.mem_singleton.mp hg' with rfl
      exact hok
  | clust c =>
      cases c with
      | leaf ctr r insts =>
          simp only [subdivideV2] at hg'
          rcases List.mem_map.mp hg' with ⟨i, _, rfl⟩
          rfl
      | node ctr r l rr =>
          simp only [subdivideV2] at hg'
          rcases List.mem_append.mp hg' with hg' | hg'
          · exact mkGrainsV2_ok D q l hok.left g' hg'
          · exact mkGrainsV2_ok D q rr hok.right g' hg'

theorem subdivideV1_depth (D : DataSet α) (q : α) :
    ∀ (g : Grain), ∀ g' ∈ subdivideV1 D q g,
    grainDepth g' + 1 ≤ max 1 (grainDepth g) := by
  intro g g' hg'
  cases g with
  | inst i d =>
      rcases List.mem_singleton.mp hg' with rfl
      simp [grainDepth]
  | clust c =>
      cases c with
      | leaf ctr r insts =>
          simp only [subdivideV1] at hg'
          rcases List.mem_map.mp hg' with ⟨i, _, rfl⟩
          simp [grainDepth]
      | node ctr r l rr =>
          simp only [subdivideV1] at hg'
          rcases List.mem_cons.mp hg' with rfl | hg'
          · simp only [grainDepth, Cluster.cheight]
            omega
          · rcases List.mem_singleton.mp hg' with rfl
            simp only [grainDepth, Cluster.cheight]
            omega

theorem mkGrainsV2_depth (D : DataSet α) (q : α) (c : Cluster) :
    ∀ g ∈ mkGrainsV2 D q c, grainDepth g ≤ c.cheight + 1 := by
  intro g hg
  rw [mkGrainsV2] at hg
  by_cases h : c.centerIndex ∈ c.instanceIndices
  · rw [if_pos h] at hg
    rcases List.mem_cons.mp hg with rfl | hg
    · simp [grainDepth]
    · rcases List.mem_singleton.mp hg with rfl
      simp [grainDepth, Cluster.removeIdx_cheight]
  · rw [if_neg h] at hg
    rcases List.mem_singleton.mp hg with rfl
    simp [grainDepth]

theorem subdivideV2_depth (D : DataSet α) (q : α) :
    ∀ (g : Grain), ∀ g' ∈ subdivideV2 D q g,
    grainDepth g' + 1 ≤ max 1 (grainDepth g) := by
  intro g g' hg'
  cases g with
  | inst i d =>
      rcases List.mem_singleton.mp hg' with rfl
      simp [grainDepth]
  | clust c =>
      cases c with
      | leaf ctr r insts =>
          simp only [subdivideV2] at hg'
          rcases List.mem_map.mp hg' with ⟨i, _, rfl⟩
          simp [grainDepth]
      | node ctr r l rr =>
          simp only [subdivideV2] at hg'
          rcases List.mem_append.mp hg' with hg' | hg'
          · have hdep := mkGrainsV2_depth D q l g' hg'
            simp only [grainDepth, Cluster.cheight] at hdep ⊢
            omega
          · have hdep := mkGrainsV2_depth D q rr g' hg'
            simp only [grainDepth, Cluster.cheight] at hdep ⊢
            omega

end SubdivideLemmas

section SieveLoopLemmas

variable {α : Type} [Inhabited α]

theorem sieveRound_inv (D : DataSet α) (q : α) (k : ℕ)
    (subdiv : Grain → List Grain) (gs : List Grain) (hm : IsMetricOn D.dist)
    (hok : ∀ g : Grain, GrainOk D q g → ∀ g' ∈ subdiv g, GrainOk D q g')
    (hperm : ∀ g : Grain, (coveredOf (subdiv g)).Perm g.indicesOf)
    (hinv : SieveInv D q k gs) :
    SieveInv D q k (sieveRound D q k subdiv gs) := by
  have hp := sievePrune_inv D q k gs hm hinv
  have hcp : (coveredOf (sieveRound D q k subdiv gs)).Perm
      (coveredOf (sievePrune D q k gs)) :=
    coveredOf_flatMap_perm subdiv hperm _
  refine ⟨?_, ?_, ?_, ?_⟩
  · intro g' hg'
    rw [sieveRound] at hg'
    rcases List.mem_flatMap.mp hg' with ⟨g, hg, hgg⟩
    exact hok g (hp.1 g hg) g' hgg
  · exact hcp.symm.nodup hp.2.1
  · intro i hi
    exact hp.2.2.1 i (hcp.subset hi)
  · exact dominates_perm D q k hcp.symm hp.2.2.2

theorem sieveLoop_inv (D : DataSet α) (q : α) (k : ℕ)
    (subdiv : Grain → List Grain) (hm : IsMetricOn D.dist)
    (hok : ∀ g : Grain, GrainOk D q g → ∀ g' ∈ subdiv g, GrainOk D q g')
    (hperm : ∀ g : Grain, (coveredOf (subdiv g)).Perm g.indicesOf) :
    ∀ (n : ℕ) (gs : List Grain), SieveInv D q k gs →
    SieveInv D q k (sieveLoop D q k subdiv n gs) := by
  intro n
  induction n with
  | zero => intro gs h; exact h
  | succ n ih =>
      intro gs h
      simp only [sieveLoop]
      by_cases hall : allInst gs = true
      · rw [if_pos hall]; exact h
      · rw [if_neg hall]
        exact ih _ (sieveRound_inv D q k subdiv gs hm hok hperm h)

theorem allInst_of_depth {gs : List Grain}
    (h : ∀ g ∈ gs, grainDepth g = 0) : allInst gs = true := by
  rw [allInst, List.all_eq_true]
  intro g hg
  cases g with
  | inst i d => rfl
  | clust c =>
      have := h _ hg
      simp [grainDepth] at this

theorem sieveLoop_allInst (D : DataSet α) (q : α) (k : ℕ)
    (subdiv : Grain → List Grain)
    (hd : ∀ g : Grain, ∀ g' ∈ subdiv g, grainDepth g' + 1 ≤ max 1 (grainDepth g)) :
    ∀ (n : ℕ) (gs : List Grain), (∀ g ∈ gs, grainDepth g ≤ n) →
    allInst (sieveLoop D q k subdiv (n + 1) gs) = true := by
  intro n
  induction n with
  | zero =>
      intro gs hgs
      have hall : allInst gs = true :=
        allInst_of_depth fun g hg => Nat.le_zero.mp (hgs g hg)
      simp [sieveLoop, hall]
  | succ n ih =>
      intro gs hgs
      simp only [sieveLoop]
      by_cases h : allInst gs = true
      · rw [if_pos h]
        exact h
      · rw [if_neg h]
        apply ih
        intro g' hg'
        rw [sieveRound] at hg'
        rcases List.mem_flatMap.mp hg' with ⟨g, hgp, hgs'⟩
        have hgin : g ∈ gs := by
          rw [sievePrune] at hgp
          exact List.mem_of_mem_filter hgp
        have h1 := hd g g' hgs'
        have h2 := hgs g hgin
        omega

theorem instPairs_eq (D : DataSet α) (q : α) :
    ∀ (gs : List Grain), allInst gs = true → (∀ g ∈ gs, GrainOk D q g) →
    instPairs gs = (coveredOf gs).map fun i => (i, D.dist q (D.pt i)) := by
  intro gs
  induction gs with
  | nil => intro _ _; rfl
  | cons g gs ih =>
      intro hall hok
      rw [allInst, List.all_cons, Bool.and_eq_true] at hall
      cases g with
      | inst i d =>
          have hd : d = D.dist q (D.pt i) :=
            hok _ (List.mem_cons_self _ gs)
          have hcv : coveredOf (Grain.inst i d :: gs) = i :: coveredOf gs := by
            simp [coveredOf, List.flatMap_cons, Grain.indicesOf]
          rw [hcv, List.map_cons]
          simp only [instPairs, List.filterMap_cons]
          rw [← instPairs,
            ih (by rw [allInst]; exact hall.2) fun g' hg' =>
              hok g' (List.mem_cons_of_mem _ hg'), hd]
      | clust c => simp at hall

theorem seedV1_inv (T : TreeM α) (q : α) (k : ℕ) (hv : T.Valid) :
    SieveInv T.data q k [Grain.clust T.root] := by
  have hcov : coveredOf [Grain.clust T.root] = T.indices := by
    rw [coveredOf_singleton]
    rfl
  refine ⟨?_, ?_, ?_, ?_⟩
  · intro g hg
    rcases List.mem_singleton.mp hg with rfl
    exact hv.1.boundOk
  · rw [hcov]
    exact hv.2.symm.nodup (List.nodup_range _)
  · intro i hi
    rw [hcov] at hi
    exact List.mem_range.mp (hv.2.subset hi)
  · rw [hcov]
    exact dominates_range T.data q k hv.2

theorem seedV2_inv (T : TreeM α) (q : α) (k : ℕ) (hv : T.Valid) :
    SieveInv T.data q k (mkGrainsV2 T.data q T.root) := by
  have hperm : (coveredOf (mkGrainsV2 T.data q T.root)).Perm T.indices :=
    mkGrainsV2_perm T.data q T.root
  refine ⟨?_, ?_, ?_, ?_⟩
  · exact mkGrainsV2_ok T.data q T.root hv.1.boundOk
  · exact (hperm.trans hv.2).symm.nodup (List.nodup_range _)
  · intro i hi
    exact List.mem_range.mp ((hperm.trans hv.2).subset hi)
  · exact dominates_perm T.data q k (hperm.trans hv.2).symm
      (dominates_range T.data q k (List.Perm.refl _))

theorem knnSieveV1_isKnn (T : TreeM α) (q : α) (k : ℕ)
    (hm : IsMetricOn T.data.dist) (hv : T.Valid) :
    IsKnnResult T.data q k (knnSieveV1 T q k) := by
  simp only [knnSieveV1]
  have hinv := sieveLoop_inv T.data q k (subdivideV1 T.data q) hm
    (subdivideV1_ok T.data q) (subdivideV1_perm T.data q)
    (T.root.cheight + 2) [Grain.clust T.root] (seedV1_inv T q k hv)
  have hall : allInst (sieveLoop T.data q k (subdivideV1 T.data q)
      (T.root.cheight + 2) [Grain.clust T.root]) = true := by
    apply sieveLoop_allInst T.data q k (subdivideV1 T.data q)
      (subdivideV1_depth T.data q) (T.root.cheight + 1)
    intro g hg
    rcases List.mem_singleton.mp hg with rfl
    simp [grainDepth]
  rw [instPairs_eq T.data q _ hall hinv.1]
  exact isKnnResult_of_dominates T.data q k _ hinv.2.1 hinv.2.2.1 hinv.2.2.2

theorem knnSieveV2_isKnn (T : TreeM α) (q : α) (k : ℕ)
    (hm : IsMetricOn T.data.dist) (hv : T.Valid) :
    IsKnnResult T.data q k (knnSieveV2 T q k) := by
  simp only [knnSieveV2]
  have hinv := sieveLoop_inv T.data q k (subdivideV2 T.data q) hm
    (subdivideV2_ok T.data q) (subdivideV2_perm T.data q)
    (T.root.cheight + 2) (mkGrainsV2 T.data q T.root) (seedV2_inv T q k hv)
  have hall : allInst (sieveLoop T.data q k (subdivideV2 T.data q)
      (T.root.cheight + 2) (mkGrainsV2 T.data q T.root)) = true := by
    apply sieveLoop_allInst T.data q k (subdivideV2 T.data q)
      (subdivideV2_depth T.data q) (T.root.cheight + 1)
    exact mkGrainsV2_depth T.data q T.root
  rw [instPairs_eq T.data q _ hall hinv.1]
  exact isKnnResult_of_dominates T.data q k _ hinv.2.1 hinv.2.2.1 hinv.2.2.2

end SieveLoopLemmas

section ExpandingThresholdDefs

variable {α : Type} [Inhabited α]

/-- Pop the element with minimal key from a nonempty collection `c :: cs`
(the `candidates` priority queue of expanding-threshold search): returns the
minimum and the remaining elements. -/
def pickMin (key : Cluster → ℚ) : Cluster → List Cluster → Cluster × List Cluster
  | c, [] => (c, [])
  | c, c' :: cs =>
      let p := pickMin key c' cs
      if key c ≤ key p.1 then (c, c' :: cs) else (p.1, c :: p.2)

theorem pickMin_spec (key : Cluster → ℚ) :
    ∀ (cs : List Cluster) (c : Cluster),
    (c :: cs).Perm ((pickMin key c cs).1 :: (pickMin key c cs).2) ∧
    (∀ x ∈ c :: cs, key (pickMin key c cs).1 ≤ key x) := by
  intro cs
  induction cs with
  | nil =>
      intro c
      refine ⟨List.Perm.refl _, ?_⟩
      intro x hx
      rcases List.mem_singleton.mp hx with rfl
      exact le_refl _
  | cons c' cs ih =>
      intro c
      simp only [pickMin]
      rcases ih c' with ⟨ihp, ihm⟩
      by_cases h : key c ≤ key (pickMin key c' cs).1
      · rw [if_pos h]
        refine ⟨List.Perm.refl _, ?_⟩
        intro x hx
        rcases List.mem_cons.mp hx with rfl | hx
        · exact le_refl _
        · exact le_trans h (ihm x hx)
      · rw [if_neg h]
        constructor
        · show (c :: c' :: cs).Perm
            ((pickMin key c' cs).1 :: c :: (pickMin key c' cs).2)
          exact List.Perm.trans (List.Perm.cons c ihp) (List.Perm.swap _ _ _)
        · intro x hx
          show key (pickMin key c' cs).1 ≤ key x
          rcases List.mem_cons.mp hx with rfl | hx
          · exact le_of_lt (not_le.mp h)
          · exact ihm x hx

/-- The distance of the current worst (farthest) hit; 0 when there are no
hits (the `hits` max-priority queue's peek). -/
def maxHitDist (hits : List (ℕ × ℚ)) : ℚ := (hits.map Prod.snd).foldr max 0

theorem le_maxHitDist (hits : List (ℕ × ℚ)) :
    ∀ p ∈ hits, p.2 ≤ maxHitDist hits := by
  induction hits with
  | nil => intro p hp; simp at hp
  | cons x xs ih =>
      intro p hp
      rcases List.mem_cons.mp hp with rfl | hp
      · exact le_max_left _ _
      · exact le_trans (ih p hp) (le_max_right _ _)

/-- Pop the element with maximal distance from a nonempty hit collection. -/
def extractMaxHit : (ℕ × ℚ) → List (ℕ × ℚ) → (ℕ × ℚ) × List (ℕ × ℚ)
  | p, [] => (p, [])
  | p, p' :: ps =>
      let m := extractMaxHit p' ps
      if m.1.2 ≤ p.2 then (p, p' :: ps) else (m.1, p :: m.2)

theorem extractMaxHit_spec :
    ∀ (ps : List (ℕ × ℚ)) (p : ℕ × ℚ),
    (p :: ps).Perm ((extractMaxHit p ps).1 :: (extractMaxHit p ps).2) ∧
    (∀ x ∈ p :: ps, x.2 ≤ (extractMaxHit p ps).1.2) ∧
    (extractMaxHit p ps).2.length = ps.length := by
  intro ps
  induction ps with
  | nil =>
      intro p
      refine ⟨List.Perm.refl _, ?_, rfl⟩
      intro x hx
      rcases List.mem_singleton.mp hx with rfl
      exact le_refl _
  | cons p' ps ih =>
      intro p
      simp only [extractMaxHit]
      rcases ih p' with ⟨ihp, ihm, ihl⟩
      by_cases h : (extractMaxHit p' ps).1.2 ≤ p.2
      · rw [if_pos h]
        refine ⟨List.Perm.refl _, ?_, rfl⟩
        intro x hx
        rcases List.mem_cons.mp hx with rfl | hx
        · exact le_refl _
        · exact le_trans (ihm x hx) h
      · rw [if_neg h]
        refine ⟨?_, ?_, ?_⟩
        · show (p :: p' :: ps).Perm
            ((extractMaxHit p' ps).1 :: p :: (extractMaxHit p' ps).2)
          exact List.Perm.trans (List.Perm.cons p ihp) (List.Perm.swap _ _ _)
        · intro x hx
          show x.2 ≤ (extractMaxHit p' ps).1.2
          rcases List.mem_cons.mp hx with rfl | hx
          · exact le_of_lt (not_le.mp h)
          · exact ihm x hx
        · show (p :: (extractMaxHit p' ps).2).length = (p' :: ps).length
          simp [ihl]

/-- Modelled from the spec: pop (and discard) the current maximum-distance
hit while the queue holds more than `k` (structural recursion on a fuel that
the wrapper instantiates with the queue length, which always suffices). -/
def trimGo (k : ℕ) : ℕ → List (ℕ × ℚ) → List (ℕ × ℚ)
  | 0, hits => hits
  | n + 1, hits =>
      if hits.length ≤ k then hits
      else
        match hits with
        | [] => []
        | p :: ps => trimGo k n (extractMaxHit p ps).2

/-- Modelled from the spec: after a leaf expansion, hits are popped (and
discarded) while the queue holds more than `k`, trimming it back to `k`. -/
def trimHits (k : ℕ) (hits : List (ℕ × ℚ)) : List (ℕ × ℚ) :=
  trimGo k hits.length hits

/-- Modelled from the spec: the main loop of `expanding_threshold::search`.
`candidates` is a min-priority collection of clusters keyed by `d_min`;
`hits` a max-priority collection of instances keyed by exact distance.  The
loop ends when candidates is empty or the best candidate cannot beat the
current worst hit while at least `k` hits are held; an internal cluster is
replaced by its children; a leaf pushes all its instances into `hits`, which
is then trimmed to `k`.  (Fuel-based recursion; the fuel used by the search
is shown sufficient below.) -/
def etLoop (D : DataSet α) (q : α) (k : ℕ) :
    ℕ → List Cluster → List (ℕ × ℚ) → List (ℕ × ℚ)
  | 0, _, hits => hits
  | _ + 1, [], hits => hits
  | n + 1, c :: cs, hits =>
      let p := pickMin (fun x => x.dMinQ D q) c cs
      if k ≤ hits.length ∧ maxHitDist hits ≤ p.1.dMinQ D q then hits
      else
        match p.1 with
        | .leaf _ _ insts =>
            etLoop D q k n p.2
              (trimHits k (hits ++ insts.map fun i => (i, D.dist q (D.pt i))))
        | .node _ _ l r => etLoop D q k n (l :: r :: p.2) hits

/-- Modelled from the spec: `expanding_threshold::search` — run the two-queue
loop from the root, then drain the hits and sort ascending by distance. -/
def knnExpandingThreshold (T : TreeM α) (q : α) (k : ℕ) : List (ℕ × ℚ) :=
  sortByDist (etLoop T.data q k (T.root.csize + 1) [T.root] [])

end ExpandingThresholdDefs

section ETInvariants

variable {α : Type} [Inhabited α]

/-- The dataset indices still in play in the expanding-threshold loop: hit
indices plus all instances of candidate clusters. -/
def etCovered (cands : List Cluster) (hits : List (ℕ × ℚ)) : List ℕ :=
  hits.map Prod.fst ++ cands.flatMap Cluster.instanceIndices

/-- The loop invariant of expanding-threshold search. -/
def ETInv (D : DataSet α) (q : α) (k : ℕ) (cands : List Cluster)
    (hits : List (ℕ × ℚ)) : Prop :=
  (∀ c ∈ cands, c.BoundOk D) ∧
  (∀ p ∈ hits, p.2 = D.dist q (D.pt p.1)) ∧
  hits.length ≤ k ∧
  (etCovered cands hits).Nodup ∧
  (∀ i ∈ etCovered cands hits, i < D.cardinality) ∧
  Dominates D q k (etCovered cands hits)

/-- What holds of the drained hits when the loop ends. -/
def ETPost (D : DataSet α) (q : α) (k : ℕ) (res : List (ℕ × ℚ)) : Prop :=
  (∀ p ∈ res, p.2 = D.dist q (D.pt p.1)) ∧ res.length ≤ k ∧
  (res.map Prod.fst).Nodup ∧ (∀ i ∈ res.map Prod.fst, i < D.cardinality) ∧
  Dominates D q k (res.map Prod.fst)

theorem subperm_nodup {β : Type} {l1 l2 : List β} (h : l1.Subperm l2)
    (hn : l2.Nodup) : l1.Nodup := by
  rcases h with ⟨l, hp, hs⟩
  exact hp.nodup (List.Nodup.sublist hs hn)

theorem subperm_map {β γ : Type} (f : β → γ) {l1 l2 : List β}
    (h : l1.Subperm l2) : (l1.map f).Subperm (l2.map f) := by
  rcases h with ⟨l, hp, hs⟩
  exact ⟨l.map f, hp.map f, hs.map f⟩

theorem clusters_flatMap_perm {l l' : List Cluster} (h : l.Perm l') :
    (l.flatMap Cluster.instanceIndices).Perm
      (l'.flatMap Cluster.instanceIndices) := by
  induction h with
  | nil => exact List.Perm.refl _
  | cons x h ih =>
      simp only [List.flatMap_cons]
      exact List.Perm.append_left _ ih
  | swap x y l =>
      simp only [List.flatMap_cons]
      rw [← List.append_assoc, ← List.append_assoc]
      exact List.Perm.append_right _ (List.perm_append_comm)
  | trans h1 h2 ih1 ih2 => exact ih1.trans ih2

theorem Cluster.csize_pos (c : Cluster) : 0 < c.csize := by
  cases c with
  | leaf ctr r insts => exact Nat.one_pos
  | node ctr r l rr => simp [Cluster.csize]

theorem trimGo_length (k : ℕ) : ∀ (n : ℕ) (h : List (ℕ × ℚ)),
    h.length ≤ n → (trimGo k n h).length = min k h.length ∨
      (trimGo k n h = h ∧ h.length ≤ k) := by
  intro n
  induction n with
  | zero =>
      intro h hn
      have he : h = [] := List.length_eq_zero.mp (Nat.le_zero.mp hn)
      subst he
      right
      exact ⟨rfl, Nat.zero_le k⟩
  | succ n ih =>
      intro h hn
      simp only [trimGo]
      by_cases hlen : h.length ≤ k
      · rw [if_pos hlen]
        right
        exact ⟨rfl, hlen⟩
      · rw [if_neg hlen]
        match h, hn, hlen with
        | [], hn, hlen => simp at hlen
        | p :: ps, hn, hlen =>
          have hspec := extractMaxHit_spec ps p
          have hlen2 : (extractMaxHit p ps).2.length ≤ n := by
            rw [hspec.2.2]
            simp only [List.length_cons] at hn
            omega
          left
          show (trimGo k n (extractMaxHit p ps).2).length = k ⊓ (p :: ps).length
          rcases ih _ hlen2 with h2 | h2
          · rw [h2, hspec.2.2]
            simp only [List.length_cons] at hlen ⊢
            omega
          · rw [h2.1]
            have := h2.2
            rw [hspec.2.2] at this ⊢
            simp only [List.length_cons] at hlen ⊢
            omega

theorem trimHits_length (k : ℕ) : ∀ (n : ℕ) (h : List (ℕ × ℚ)),
    h.length ≤ n → (trimHits k h).length = min k h.length := by
  intro _ h _
  rw [trimHits]
  rcases trimGo_length k h.length h (le_refl _) with h2 | h2
  · exact h2
  · rw [h2.1]
    omega

theorem trimGo_subperm (k : ℕ) : ∀ (n : ℕ) (h : List (ℕ × ℚ)),
    h.length ≤ n → (trimGo k n h).Subperm h := by
  intro n
  induction n with
  | zero =>
      intro h hn
      have he : h = [] := List.length_eq_zero.mp (Nat.le_zero.mp hn)
      subst he
      exact List.Subperm.refl _
  | succ n ih =>
      intro h hn
      simp only [trimGo]
      by_cases hlen : h.length ≤ k
      · rw [if_pos hlen]
      · rw [if_neg hlen]
        match h, hn, hlen with
        | [], hn, hlen => simp at hlen
        | p :: ps, hn, hlen =>
          have hspec := extractMaxHit_spec ps p
          have hlen2 : (extractMaxHit p ps).2.length ≤ n := by
            rw [hspec.2.2]
            simp only [List.length_cons] at hn
            omega
          refine List.Subperm.trans (ih _ hlen2) ?_
          refine List.Subperm.trans
            ((List.sublist_cons_self (extractMaxHit p ps).1 _).subperm) ?_
          exact hspec.1.symm.subperm

theorem trimHits_subperm (k : ℕ) : ∀ (n : ℕ) (h : List (ℕ × ℚ)),
    h.length ≤ n → (trimHits k h).Subperm h := by
  intro _ h _
  rw [trimHits]
  exact trimGo_subperm k h.length h (le_refl _)

theorem trimGo_dominates (D : DataSet α) (q : α) (k : ℕ) (E : List ℕ) :
    ∀ (n : ℕ) (h : List (ℕ × ℚ)), h.length ≤ n →
    (∀ p ∈ h, p.2 = D.dist q (D.pt p.1)) →
    Dominates D q k (h.map Prod.fst ++ E) →
    Dominates D q k ((trimGo k n h).map Prod.fst ++ E) := by
  intro n
  induction n with
  | zero =>
      intro h hn _ hd
      have he : h = [] := List.length_eq_zero.mp (Nat.le_zero.mp hn)
      subst he
      simpa [trimGo] using hd
  | succ n ih =>
      intro h hn htr hd
      simp only [trimGo]
      by_cases hlen : h.length ≤ k
      · rw [if_pos hlen]
        exact hd
      · rw [if_neg hlen]
        match h, htr, hd, hn, hlen with
        | [], htr, hd, hn, hlen => simp at hlen
        | p :: ps, htr, hd, hn, hlen =>
          have hspec := extractMaxHit_spec ps p
          have hlen2 : (extractMaxHit p ps).2.length ≤ n := by
            rw [hspec.2.2]
            simp only [List.length_cons] at hn
            omega
          have hklen : k ≤ (extractMaxHit p ps).2.length := by
            rw [hspec.2.2]
            simp only [List.length_cons] at hlen
            omega
          have hmem : ∀ x ∈ (extractMaxHit p ps).2, x ∈ p :: ps := by
            intro x hx
            exact hspec.1.symm.subset (List.mem_cons_of_mem _ hx)
          have htr2 : ∀ x ∈ (extractMaxHit p ps).2,
              x.2 = D.dist q (D.pt x.1) := fun x hx => htr x (hmem x hx)
          apply ih _ hlen2 htr2
          have hm_mem : (extractMaxHit p ps).1 ∈ p :: ps :=
            hspec.1.symm.subset (List.mem_cons_self _ _)
          constructor
          · rw [List.length_append, List.length_map]
            have := min_le_left k D.cardinality
            omega
          · intro v
            rcases le_or_lt (extractMaxHit p ps).1.2 v with hv | hv
            · have hfull : List.countP
                  (fun i => decide (D.dist q (D.pt i) ≤ v))
                  ((extractMaxHit p ps).2.map Prod.fst) =
                  (extractMaxHit p ps).2.length := by
                rw [List.countP_map]
                apply List.countP_eq_length.mpr
                intro x hx
                simp only [Function.comp_apply, decide_eq_true_eq]
                rw [← htr2 x hx]
                exact le_trans (hspec.2.1 x (hmem x hx)) hv
              have hsplit : List.countP
                  (fun i => decide (D.dist q (D.pt i) ≤ v))
                  ((extractMaxHit p ps).2.map Prod.fst ++ E) =
                  List.countP (fun i => decide (D.dist q (D.pt i) ≤ v))
                    ((extractMaxHit p ps).2.map Prod.fst) +
                  List.countP (fun i => decide (D.dist q (D.pt i) ≤ v)) E :=
                List.countP_append _ _ _
              simp only [distLeCount]
              rw [hsplit, hfull]
              have := min_le_left k
                (List.countP (fun i => decide (D.dist q (D.pt i) ≤ v))
                  (List.range D.cardinality))
              omega
            · have hperm2 : (((p :: ps).map Prod.fst) ++ E).Perm
                  ((((extractMaxHit p ps).1 :: (extractMaxHit p ps).2).map
                    Prod.fst) ++ E) :=
                List.Perm.append_right E (hspec.1.map Prod.fst)
              have hcnt := hd.2 v
              simp only [distLeCount] at hcnt ⊢
              rw [List.Perm.countP_eq _ hperm2] at hcnt
              simp only [List.map_cons, List.countP_append,
                List.countP_cons] at hcnt
              have hmzero : decide
                  (D.dist q (D.pt (extractMaxHit p ps).1.1) ≤ v) = false := by
                simp only [decide_eq_false_iff_not]
                rw [← htr _ hm_mem]
                exact not_le.mpr hv
              rw [hmzero] at hcnt
              simp only [Bool.false_eq_true, if_false, add_zero] at hcnt
              simp only [List.countP_append]
              omega

theorem trimHits_dominates (D : DataSet α) (q : α) (k : ℕ) (E : List ℕ) :
    ∀ (n : ℕ) (h : List (ℕ × ℚ)), h.length ≤ n →
    (∀ p ∈ h, p.2 = D.dist q (D.pt p.1)) →
    Dominates D q k (h.map Prod.fst ++ E) →
    Dominates D q k ((trimHits k h).map Prod.fst ++ E) := by
  intro _ h _ htr hd
  rw [trimHits]
  exact trimGo_dominates D q k E h.length h (le_refl _) htr hd

theorem etLoop_post (D : DataSet α) (q : α) (k : ℕ) (hm : IsMetricOn D.dist) :
    ∀ (n : ℕ) (cands : List Cluster) (hits : List (ℕ × ℚ)),
    (cands.map Cluster.csize).sum < n → ETInv D q k cands hits →
    ETPost D q k (etLoop D q k n cands hits) := by
  intro n
  induction n with
  | zero => intro cands hits hn _; omega
  | succ n ih =>
      intro cands hits hn hinv
      rcases hinv with ⟨hbo, htr, hhl, hnd, hsub, hdom⟩
      match cands, hbo, hnd, hsub, hdom, hn with
      | [], hbo, hnd, hsub, hdom, hn =>
          simp only [etLoop]
          have hc : etCovered [] hits = hits.map Prod.fst := by
            simp [etCovered]
          rw [hc] at hnd hsub hdom
          exact ⟨htr, hhl, hnd, hsub, hdom⟩
      | c :: cs, hbo, hnd, hsub, hdom, hn =>
          simp only [etLoop]
          rcases pickMin_spec (fun x => x.dMinQ D q) cs c with ⟨hperm, hmin⟩
          by_cases hdone : k ≤ hits.length ∧ maxHitDist hits ≤
              (pickMin (fun x => x.dMinQ D q) c cs).1.dMinQ D q
          · rw [if_pos hdone]
            refine ⟨htr, hhl, ?_, ?_, ?_⟩
            · exact (List.nodup_append.mp (by simpa [etCovered] using hnd)).1
            · intro i hi
              apply hsub
              simp only [etCovered]
              exact List.mem_append.mpr (Or.inl hi)
            · constructor
              · rw [List.length_map]
                have := min_le_left k D.cardinality
                omega
              · intro v
                rcases le_or_lt (maxHitDist hits) v with hv | hv
                · have hfull : List.countP
                      (fun i => decide (D.dist q (D.pt i) ≤ v))
                      (hits.map Prod.fst) = (hits.map Prod.fst).length := by
                    apply List.countP_eq_length.mpr
                    intro x hx
                    rcases List.mem_map.mp hx with ⟨p, hp, rfl⟩
                    simp only [decide_eq_true_eq]
                    rw [← htr p hp]
                    exact le_trans (le_maxHitDist hits p hp) hv
                  simp only [distLeCount]
                  rw [hfull, List.length_map]
                  have := min_le_left k
                    (List.countP (fun i => decide (D.dist q (D.pt i) ≤ v))
                      (List.range D.cardinality))
                  omega
                · have hc0 : List.countP
                      (fun i => decide (D.dist q (D.pt i) ≤ v))
                      ((c :: cs).flatMap Cluster.instanceIndices) = 0 := by
                    apply List.countP_eq_zero.mpr
                    intro i hi
                    rcases List.mem_flatMap.mp hi with ⟨x, hx, hix⟩
                    simp only [decide_eq_true_eq]
                    intro hle
                    have h1 := dMinQ_le_dist D q hm (hbo x hx) i hix
                    have h2 := hmin x hx
                    have h3 := hdone.2
                    linarith
                  have hd2 := hdom.2 v
                  simp only [etCovered, distLeCount, List.countP_append] at hd2
                  rw [hc0] at hd2
                  simp only [distLeCount]
                  omega
          · rw [if_neg hdone]
            have hp1mem : (pickMin (fun x => x.dMinQ D q) c cs).1 ∈ c :: cs :=
              hperm.symm.subset (List.mem_cons_self _ _)
            have hp2sub : ∀ x ∈ (pickMin (fun x => x.dMinQ D q) c cs).2,
                x ∈ c :: cs := by
              intro x hx
              exact hperm.symm.subset (List.mem_cons_of_mem _ hx)
            have hsum : ((c :: cs).map Cluster.csize).sum =
                Cluster.csize (pickMin (fun x => x.dMinQ D q) c cs).1 +
                (((pickMin (fun x => x.dMinQ D q) c cs).2).map
                  Cluster.csize).sum := by
              have h1 := (hperm.map Cluster.csize).sum_eq
              simpa using h1
            have hfcp : ((c :: cs).flatMap Cluster.instanceIndices).Perm
                ((pickMin (fun x => x.dMinQ D q) c cs).1.instanceIndices ++
                  ((pickMin (fun x => x.dMinQ D q) c cs).2).flatMap
                    Cluster.instanceIndices) := by
              have h1 := clusters_flatMap_perm hperm
              simpa [List.flatMap_cons] using h1
            cases hp1 : (pickMin (fun x => x.dMinQ D q) c cs).1 with
            | leaf ctr rad insts =>
                set hits0 := hits ++ insts.map fun i => (i, D.dist q (D.pt i))
                  with hhits0
                have hmapfst : hits0.map Prod.fst = hits.map Prod.fst ++ insts := by
                  rw [hhits0, List.map_append, List.map_map]
                  congr 1
                  have : (Prod.fst ∘ fun i : ℕ => (i, D.dist q (D.pt i))) = id :=
                    rfl
                  rw [this, List.map_id]
                have hcov0 : etCovered
                    (pickMin (fun x => x.dMinQ D q) c cs).2 hits0 =
                    hits.map Prod.fst ++ (insts ++
                      ((pickMin (fun x => x.dMinQ D q) c cs).2).flatMap
                        Cluster.instanceIndices) := by
                  simp only [etCovered, hmapfst, List.append_assoc]
                have hcovperm : (etCovered
                    (pickMin (fun x => x.dMinQ D q) c cs).2 hits0).Perm
                    (etCovered (c :: cs) hits) := by
                  rw [hcov0]
                  simp only [etCovered]
                  apply List.Perm.append_left
                  have h2 := hfcp
                  rw [hp1] at h2
                  simpa [Cluster.instanceIndices] using h2.symm
                have htr0 : ∀ p ∈ hits0, p.2 = D.dist q (D.pt p.1) := by
                  intro p hp
                  rw [hhits0] at hp
                  rcases List.mem_append.mp hp with hp | hp
                  · exact htr p hp
                  · rcases List.mem_map.mp hp with ⟨i, _, rfl⟩
                    rfl
                have hnd0 : (etCovered
                    (pickMin (fun x => x.dMinQ D q) c cs).2 hits0).Nodup :=
                  hcovperm.symm.nodup hnd
                have hsub0 : ∀ i ∈ etCovered
                    (pickMin (fun x => x.dMinQ D q) c cs).2 hits0,
                    i < D.cardinality := fun i hi => hsub i (hcovperm.subset hi)
                have hdom0 : Dominates D q k (etCovered
                    (pickMin (fun x => x.dMinQ D q) c cs).2 hits0) :=
                  dominates_perm D q k hcovperm.symm hdom
                apply ih
                · have hcp : 0 < Cluster.csize
                      (pickMin (fun x => x.dMinQ D q) c cs).1 :=
                    Cluster.csize_pos _
                  omega
                · refine ⟨?_, ?_, ?_, ?_, ?_, ?_⟩
                  · intro x hx
                    exact hbo x (hp2sub x hx)
                  · intro p hp
                    have hsp := trimHits_subperm k hits0.length hits0 (le_refl _)
                    exact htr0 p (hsp.subset hp)
                  · rw [trimHits_length k hits0.length hits0 (le_refl _)]
                    exact min_le_left _ _
                  · have hsp := subperm_map Prod.fst
                      (trimHits_subperm k hits0.length hits0 (le_refl _))
                    simp only [etCovered] at hnd0 ⊢
                    have hparts := List.nodup_append.mp hnd0
                    refine List.nodup_append.mpr
                      ⟨subperm_nodup hsp hparts.1, hparts.2.1, ?_⟩
                    intro a ha hae
                    exact hparts.2.2 (hsp.subset ha) hae
                  · intro i hi
                    apply hsub0
                    simp only [etCovered] at hi ⊢
                    rcases List.mem_append.mp hi with hi | hi
                    · exact List.mem_append.mpr (Or.inl
                        ((subperm_map Prod.fst (trimHits_subperm k hits0.length
                          hits0 (le_refl _))).subset hi))
                    · exact List.mem_append.mpr (Or.inr hi)
                  · have hdt := trimHits_dominates D q k
                      (((pickMin (fun x => x.dMinQ D q) c cs).2).flatMap
                        Cluster.instanceIndices)
                      hits0.length hits0 (le_refl _) htr0
                      (by simpa [etCovered] using hdom0)
                    simpa [etCovered] using hdt
            | node ctr rad l rr =>
                have hp1bo : (Cluster.node ctr rad l rr).BoundOk D := by
                  rw [← hp1]
                  exact hbo _ hp1mem
                have hcoveq : etCovered
                    (l :: rr :: (pickMin (fun x => x.dMinQ D q) c cs).2) hits =
                    hits.map Prod.fst ++ ((Cluster.node ctr rad l rr).instanceIndices ++
                      ((pickMin (fun x => x.dMinQ D q) c cs).2).flatMap
                        Cluster.instanceIndices) := by
                  simp [etCovered, List.flatMap_cons, Cluster.instanceIndices,
                    List.append_assoc]
                have hcovperm : (etCovered
                    (l :: rr :: (pickMin (fun x => x.dMinQ D q) c cs).2)
                    hits).Perm (etCovered (c :: cs) hits) := by
                  rw [hcoveq]
                  simp only [etCovered]
                  apply List.Perm.append_left
                  have h2 := hfcp
                  rw [hp1] at h2
                  exact h2.symm
                apply ih
                · have hsz : Cluster.csize (Cluster.node ctr rad l rr) =
                      l.csize + rr.csize + 1 := rfl
                  rw [hp1] at hsum
                  simp only [List.map_cons, List.sum_cons]
                  rw [hsz] at hsum
                  omega
                · refine ⟨?_, htr, hhl, ?_, ?_, ?_⟩
                  · intro x hx
                    rcases List.mem_cons.mp hx with rfl | hx
                    · exact hp1bo.left
                    · rcases List.mem_cons.mp hx with rfl | hx
                      · exact hp1bo.right
                      · exact hbo x (hp2sub x hx)
                  · exact hcovperm.symm.nodup hnd
                  · exact fun i hi => hsub i (hcovperm.subset hi)
                  · exact dominates_perm D q k hcovperm.symm hdom

end ETInvariants

section ETFinal

variable {α : Type} [Inhabited α]

theorem map_pair_of_truthful (D : DataSet α) (q : α) :
    ∀ (h : List (ℕ × ℚ)), (∀ p ∈ h, p.2 = D.dist q (D.pt p.1)) →
    (h.map Prod.fst).map (fun i => (i, D.dist q (D.pt i))) = h := by
  intro h
  induction h with
  | nil => intro _; rfl
  | cons p ps ih =>
      intro htr
      simp only [List.map_cons]
      rw [ih fun x hx => htr x (List.mem_cons_of_mem p hx)]
      have h1 := htr p (List.mem_cons_self p ps)
      obtain ⟨a, b⟩ := p
      simp only at h1
      rw [h1]

theorem knnExpandingThreshold_isKnn (T : TreeM α) (q : α) (k : ℕ)
    (hm : IsMetricOn T.data.dist) (hv : T.Valid) :
    IsKnnResult T.data q k (knnExpandingThreshold T q k) := by
  rw [knnExpandingThreshold]
  have hc : etCovered [T.root] ([] : List (ℕ × ℚ)) = T.indices := by
    simp [etCovered, TreeM.indices]
  have hinv0 : ETInv T.data q k [T.root] [] := by
    refine ⟨?_, ?_, ?_, ?_, ?_, ?_⟩
    · intro c hcm
      rcases List.mem_singleton.mp hcm with rfl
      exact hv.1.boundOk
    · intro p hp
      simp at hp
    · simp
    · rw [hc]
      exact hv.2.symm.nodup (List.nodup_range _)
    · intro i hi
      rw [hc] at hi
      exact List.mem_range.mp (hv.2.subset hi)
    · rw [hc]
      exact dominates_range T.data q k hv.2
  have hpost := etLoop_post T.data q k hm (T.root.csize + 1) [T.root] []
    (by simp) hinv0
  rcases hpost with ⟨htr, hlen, hnd, hsub, hdom⟩
  have hk := isKnnResult_of_dominates T.data q k
    ((etLoop T.data q k (T.root.csize + 1) [T.root] []).map Prod.fst)
    hnd hsub hdom
  rw [map_pair_of_truthful T.data q _ htr] at hk
  have hlen2 : (sortByDist
      (etLoop T.data q k (T.root.csize + 1) [T.root] [])).length ≤ k := by
    rw [sortByDist,
      (List.perm_insertionSort pairLe _).length_eq]
    exact hlen
  rw [List.take_all_of_le hlen2] at hk
  exact hk

end ETFinal

section AlgorithmDispatch

variable {α : Type} [Inhabited α]

/-- The algorithm to use for K-Nearest Neighbor search
(`src/abd-clam/src/cakes/knn/mod.rs`, `enum Algorithm`). -/
inductive Algorithm : Type where
  | Linear
  | RepeatedRnn
  | SieveV1
  | SieveV2
  | ExpandingThreshold

/-- `impl Default for Algorithm`: the default variant is `RepeatedRnn`. -/
def Algorithm.default : Algorithm := Algorithm.RepeatedRnn

/-- `Algorithm::search`: the uniform entry point, dispatching each variant to
its strategy (`Linear` receives `tree.data()`, the query, `k` and
`tree.indices()`; the others receive the tree, the query and `k`). -/
def Algorithm.search (a : Algorithm) (T : TreeM α) (q : α) (k : ℕ) :
    List (ℕ × ℚ) :=
  match a with
  | .Linear => linearSearch T.data q k T.indices
  | .RepeatedRnn => knnRepeatedRnn T q k
  | .SieveV1 => knnSieveV1 T q k
  | .SieveV2 => knnSieveV2 T q k
  | .ExpandingThreshold => knnExpandingThreshold T q k

/-- Every variant reachable through the entry point returns a correct
k-nearest-neighbor result, for valid trees with positive root radius. -/
theorem search_isKnn (a : Algorithm) (T : TreeM α) (q : α) (k : ℕ)
    (hm : IsMetricOn T.data.dist) (hv : T.Valid) (hr : 0 < T.root.radius) :
    IsKnnResult T.data q k (a.search T q k) := by
  cases a with
  | Linear => exact linearSearch_isKnn T.data q k hv.2
  | RepeatedRnn => exact knnRepeatedRnn_isKnn T q k hm hv hr
  | SieveV1 => exact knnSieveV1_isKnn T q k hm hv
  | SieveV2 => exact knnSieveV2_isKnn T q k hm hv
  | ExpandingThreshold => exact knnExpandingThreshold_isKnn T q k hm hv

end AlgorithmDispatch

section Examples

/-- Absolute difference on the rational line, written to be executable by
kernel reduction. -/
def absQ (x : ℚ) : ℚ := if x < 0 then -x else x

/-- The example metric: absolute difference of rationals. -/
def exDist (x y : ℚ) : ℚ := absQ (x - y)

theorem absQ_eq_abs (x : ℚ) : absQ x = |x| := by
  rw [absQ]
  by_cases h : x < 0
  · rw [if_pos h, abs_of_neg h]
  · rw [if_neg h, abs_of_nonneg (not_lt.mp h)]

theorem exDist_metric : IsMetricOn exDist := by
  constructor
  · intro x y
    rw [exDist, absQ_eq_abs]
    exact abs_nonneg _
  · intro x y
    rw [exDist, exDist, absQ_eq_abs, absQ_eq_abs]
    exact abs_sub_comm x y
  · intro x y z
    rw [exDist, exDist, exDist, absQ_eq_abs, absQ_eq_abs, absQ_eq_abs]
    exact abs_sub_le x y z

/-- A 4-point example dataset on the line: positions 0, 1, 2, 3. -/
def exD4 : DataSet ℚ := ⟨[0, 1, 2, 3], exDist⟩

/-- A valid 2-level tree over `exD4` with positive radii. -/
def exRoot4 : Cluster :=
  .node 1 3 (.leaf 1 1 [0, 1]) (.leaf 2 1 [2, 3])

/-- The example tree over `exD4`. -/
def exT4 : TreeM ℚ := ⟨exD4, exRoot4⟩

/-- A 2-point dataset whose points coincide, giving a tree of radius 0. -/
def exD0 : DataSet ℚ := ⟨[3, 3], exDist⟩

/-- The (valid) radius-0 tree over `exD0`. -/
def exRoot0 : Cluster := .leaf 0 0 [0, 1]

/-- The radius-0 example tree. -/
def exT0 : TreeM ℚ := ⟨exD0, exRoot0⟩

/-- A 2-point dataset at positions 0 and 3. -/
def exD2 : DataSet ℚ := ⟨[0, 3], exDist⟩

/-- A valid tree over `exD2` with two singleton leaves. -/
def exRoot2 : Cluster := .node 0 3 (.leaf 0 0 [0]) (.leaf 1 0 [1])

/-- The example tree over `exD2`. -/
def exT2 : TreeM ℚ := ⟨exD2, exRoot2⟩

end Examples

section ExampleValidity

attribute [local semireducible] Rat.add Rat.sub Rat.mul Rat.inv

theorem exT4_valid : exT4.Valid := by
  constructor
  · refine ⟨by decide, by decide, ?_, ⟨by decide, by decide, by decide, ?_⟩,
      ⟨by decide, by decide, by decide, ?_⟩⟩ <;> decide
  · decide

theorem exT0_valid : exT0.Valid := by
  constructor
  · refine ⟨by decide, by decide, by decide, ?_⟩
    decide
  · decide

theorem exT2_valid : exT2.Valid := by
  constructor
  · refine ⟨by decide, by decide, ?_, ⟨by decide, by decide, by decide, ?_⟩,
      ⟨by decide, by decide, by decide, ?_⟩⟩ <;> decide
  · decide

end ExampleValidity


section ClaimHelpers

theorem perm_range_of_nodup_subset {l : List ℕ} {n : ℕ} (hnd : l.Nodup)
    (hsub : ∀ i ∈ l, i < n) (hlen : l.length = n) :
    l.Perm (List.range n) := by
  have hsp := List.subperm_of_subset hnd
    (fun i hi => List.mem_range.mpr (hsub i hi))
  apply List.Subperm.perm_of_length_le hsp
  rw [hlen, List.length_range]

end ClaimHelpers

section Claims

variable {α : Type} [Inhabited α]

/-- C1: For every dataset, tree, query, and k — provided the tree's root
radius is positive — each algorithm variant reachable through the uniform
entry point (Linear, RepeatedRnn, SieveV1, SieveV2, ExpandingThreshold)
returns a correct k-nearest-neighbor result whose distance sequence is
identical to linear search's, i.e. the same set of (index, distance) pairs
up to tie-breaking among equal distances. -/
theorem search_equiv_linear (a : Algorithm) (T : TreeM α) (q : α) (k : ℕ)
    (hm : IsMetricOn T.data.dist) (hv : T.Valid) (hr : 0 < T.root.radius) :
    IsKnnResult T.data q k (a.search T q k) ∧
    (a.search T q k).map Prod.snd =
      (Algorithm.search Algorithm.Linear T q k).map Prod.snd := by
  have h1 := search_isKnn a T q k hm hv hr
  have h2 := search_isKnn Algorithm.Linear T q k hm hv hr
  exact ⟨h1, knnResult_map_snd_eq T.data q k h1 h2⟩

/-- C2: For every tree, query, and k — provided the tree's root radius is
positive — every algorithm variant returns a sequence of length exactly
min(k, dataset cardinality), sorted ascending by distance, with no duplicate
instance indices. -/
theorem search_result_shape (a : Algorithm) (T : TreeM α) (q : α) (k : ℕ)
    (hm : IsMetricOn T.data.dist) (hv : T.Valid) (hr : 0 < T.root.radius) :
    (a.search T q k).length = min k T.data.cardinality ∧
    List.Sorted (· ≤ ·) ((a.search T q k).map Prod.snd) ∧
    ((a.search T q k).map Prod.fst).Nodup := by
  have h := search_isKnn a T q k hm hv hr
  exact ⟨h.1, h.2.1, h.2.2.1⟩

/-- C3: The bound primitives compute `d_min = max(0, dc - radius)` and
`d_max = dc + radius`; `d_min` is never negative, `d_min` is a lower bound
and `d_max` an upper bound on the distance from the query to every instance
owned by the cluster, given the metric axioms and the radius invariant. -/
theorem bound_primitives (D : DataSet α) (q : α) (c : Cluster)
    (hm : IsMetricOn D.dist) (hb : c.BoundOk D) :
    c.dMinQ D q = max 0 (D.dist q (D.pt c.centerIndex) - c.radius) ∧
    c.dMaxQ D q = D.dist q (D.pt c.centerIndex) + c.radius ∧
    0 ≤ c.dMinQ D q ∧
    (∀ i ∈ c.instanceIndices,
      c.dMinQ D q ≤ D.dist q (D.pt i) ∧ D.dist q (D.pt i) ≤ c.dMaxQ D q) := by
  refine ⟨rfl, rfl, d_min_nonneg _ _, ?_⟩
  intro i hi
  exact ⟨dMinQ_le_dist D q hm hb i hi, dist_le_dMaxQ D q hm hb i hi⟩

/-- C4: In each sieve round the threshold θ is the smallest distance value
such that the cumulative weight of grains with `d_max ≤ θ` is at least k,
and every grain with `d_min > θ` contains none of the true k nearest
neighbors: each of its instances has at least k dataset instances strictly
closer to the query, so pruning it never removes a true k-nearest
neighbor. -/
theorem sieve_threshold_spec (D : DataSet α) (q : α) (k : ℕ)
    (gs : List Grain) (hm : IsMetricOn D.dist)
    (hok : ∀ g ∈ gs, GrainOk D q g) (hnd : (coveredOf gs).Nodup)
    (hsub : ∀ i ∈ coveredOf gs, i < D.cardinality)
    (hk : 1 ≤ k) (hw : k ≤ totalWeight gs) :
    k ≤ weightAtMost D q (threshold D q k gs) gs ∧
    (∀ v : ℚ, k ≤ weightAtMost D q v gs → threshold D q k gs ≤ v) ∧
    (∀ g ∈ gs, threshold D q k gs < g.gdmin D q → ∀ j ∈ g.indicesOf,
      k ≤ (List.range D.cardinality).countP
        (fun i => decide (D.dist q (D.pt i) < D.dist q (D.pt j)))) := by
  refine ⟨threshold_coverage D q k gs hk hw, threshold_min D q k gs hk, ?_⟩
  intro g hg hgmin j hj
  set th := threshold D q k gs with hth
  set S := gs.filter (fun g' => decide (g'.gdmax D q ≤ th)) with hS
  have hcov : k ≤ weightAtMost D q th gs := threshold_coverage D q k gs hk hw
  have hSwt : totalWeight S = weightAtMost D q th gs := by
    rw [hS, totalWeight, weightAtMost]
  have hSlen : k ≤ (coveredOf S).length := by
    rw [← totalWeight_eq_covered_length, hSwt]
    exact hcov
  have hdj : th < D.dist q (D.pt j) :=
    lt_of_lt_of_le hgmin ((grain_dist_bounds D q hm (hok g hg)) j hj).1
  have hSclose : ∀ i ∈ coveredOf S, D.dist q (D.pt i) < D.dist q (D.pt j) := by
    intro i hi
    rcases List.mem_flatMap.mp hi with ⟨g', hg'S, hig'⟩
    have hg'mem : g' ∈ gs := by
      rw [hS] at hg'S
      exact List.mem_of_mem_filter hg'S
    have hmax : g'.gdmax D q ≤ th := by
      rw [hS] at hg'S
      simpa using List.of_mem_filter hg'S
    calc D.dist q (D.pt i) ≤ g'.gdmax D q :=
          ((grain_dist_bounds D q hm (hok g' hg'mem)) i hig').2
      _ ≤ th := hmax
      _ < D.dist q (D.pt j) := hdj
  have hSsub : (coveredOf S).Sublist (coveredOf gs) := by
    rw [hS]
    exact coveredOf_filter_sublist _ _
  have h1 : k ≤ (coveredOf S).countP
      (fun i => decide (D.dist q (D.pt i) < D.dist q (D.pt j))) := by
    rw [List.countP_eq_length.mpr]
    · exact hSlen
    · intro i hi
      simpa using hSclose i hi
  have h2 : (coveredOf S).countP
      (fun i => decide (D.dist q (D.pt i) < D.dist q (D.pt j))) ≤
      (coveredOf gs).countP
      (fun i => decide (D.dist q (D.pt i) < D.dist q (D.pt j))) :=
    List.Sublist.countP_le _ hSsub
  have h3 : (coveredOf gs).countP
      (fun i => decide (D.dist q (D.pt i) < D.dist q (D.pt j))) ≤
      (List.range D.cardinality).countP
      (fun i => decide (D.dist q (D.pt i) < D.dist q (D.pt j))) := by
    apply List.Subperm.countP_le
    exact List.subperm_of_subset hnd
      (fun i hi => List.mem_range.mpr (hsub i hi))
  omega

/-- C5: The expanding-threshold loop returns its hits exactly when the
candidates queue is empty, or when hits has at least k entries and the
minimum `d_min` among candidates is at least the maximum hit distance;
otherwise it steps: an internal cluster is replaced by its two children, a
leaf pushes all contained instances into hits with exact distances and then
pops maximum-distance hits down to k, so hits never exceeds size k between
iterations. -/
theorem expanding_threshold_loop_spec (D : DataSet α) (q : α) (k : ℕ) :
    (∀ (n : ℕ) (hits : List (ℕ × ℚ)), etLoop D q k (n + 1) [] hits = hits) ∧
    (∀ (n : ℕ) (c : Cluster) (cs : List Cluster) (hits : List (ℕ × ℚ)),
      k ≤ hits.length →
      maxHitDist hits ≤ (pickMin (fun x => x.dMinQ D q) c cs).1.dMinQ D q →
      etLoop D q k (n + 1) (c :: cs) hits = hits) ∧
    (∀ (n : ℕ) (c : Cluster) (cs : List Cluster) (hits : List (ℕ × ℚ))
      (ctr : ℕ) (rad : ℚ) (insts : List ℕ),
      ¬(k ≤ hits.length ∧ maxHitDist hits ≤
        (pickMin (fun x => x.dMinQ D q) c cs).1.dMinQ D q) →
      (pickMin (fun x => x.dMinQ D q) c cs).1 = Cluster.leaf ctr rad insts →
      etLoop D q k (n + 1) (c :: cs) hits =
        etLoop D q k n (pickMin (fun x => x.dMinQ D q) c cs).2
          (trimHits k (hits ++ insts.map fun i => (i, D.dist q (D.pt i))))) ∧
    (∀ (n : ℕ) (c : Cluster) (cs : List Cluster) (hits : List (ℕ × ℚ))
      (ctr : ℕ) (rad : ℚ) (l r : Cluster),
      ¬(k ≤ hits.length ∧ maxHitDist hits ≤
        (pickMin (fun x => x.dMinQ D q) c cs).1.dMinQ D q) →
      (pickMin (fun x => x.dMinQ D q) c cs).1 = Cluster.node ctr rad l r →
      etLoop D q k (n + 1) (c :: cs) hits =
        etLoop D q k n (l :: r :: (pickMin (fun x => x.dMinQ D q) c cs).2)
          hits) ∧
    (∀ (n : ℕ) (h : List (ℕ × ℚ)), h.length ≤ n →
      (trimHits k h).length = min k h.length) ∧
    (∀ (n : ℕ) (cands : List Cluster) (hits : List (ℕ × ℚ)),
      hits.length ≤ k → (etLoop D q k n cands hits).length ≤ k) := by
  refine ⟨?_, ?_, ?_, ?_, trimHits_length k, ?_⟩
  · intro n hits
    rfl
  · intro n c cs hits h1 h2
    simp only [etLoop]
    rw [if_pos ⟨h1, h2⟩]
  · intro n c cs hits ctr rad insts hcond heq
    simp only [etLoop]
    rw [if_neg hcond, heq]
  · intro n c cs hits ctr rad l r hcond heq
    simp only [etLoop]
    rw [if_neg hcond, heq]
  · intro n
    induction n with
    | zero =>
        intro cands hits hh
        exact hh
    | succ n ih =>
        intro cands hits hh
        match cands with
        | [] => exact hh
        | c :: cs =>
            simp only [etLoop]
            by_cases hdone : k ≤ hits.length ∧ maxHitDist hits ≤
                (pickMin (fun x => x.dMinQ D q) c cs).1.dMinQ D q
            · rw [if_pos hdone]
              exact hh
            · rw [if_neg hdone]
              cases hp : (pickMin (fun x => x.dMinQ D q) c cs).1 with
              | leaf ctr rad insts =>
                  apply ih
                  rw [trimHits_length k (hits ++ insts.map
                    fun i => (i, D.dist q (D.pt i))).length _ (le_refl _)]
                  exact min_le_left _ _
              | node ctr rad l r => exact ih _ _ hh

/-- C6: Repeated-RNN search seeds the radius with tree radius over dataset
cardinality; while the range count is 0 it doubles the radius; once positive
it multiplies the radius by the LFD-derived growth factor, capped at 2, until
the count reaches k (capped at the cardinality); the result is the sorted
range result truncated to the first k. -/
theorem repeated_rnn_structure (T : TreeM α) (q : α) (k : ℕ) :
    rrSeed T = T.radius / (T.data.cardinality : ℚ) ∧
    (∀ (n : ℕ) (r : ℚ), rnnCount T q r = 0 →
      rrExpand T q (n + 1) r = rrExpand T q n (2 * r)) ∧
    (∀ (n : ℕ) (r : ℚ), 0 < rnnCount T q r → rrExpand T q (n + 1) r = r) ∧
    (∀ r : ℚ, growthFactor T q k r ≤ 2) ∧
    (∀ (n : ℕ) (r : ℚ), rnnCount T q r < min k T.data.cardinality →
      rrConverge T q k (n + 1) r =
        rrConverge T q k n (r * growthFactor T q k r)) ∧
    (∀ (n : ℕ) (r : ℚ), min k T.data.cardinality ≤ rnnCount T q r →
      rrConverge T q k (n + 1) r = r) ∧
    knnRepeatedRnn T q k = (sortByDist (rangeSearch T.data q
      (rrConverge T q k
        (k * T.data.cardinality * qCeilNat (rrAllRadius T q / rrSeed T) + 1)
        (rrExpand T q (qCeilNat (rrAllRadius T q / rrSeed T) + 1) (rrSeed T)))
      T.root)).take k := by
  refine ⟨rfl, ?_, ?_, fun r => growthFactor_le_two T q k r, ?_, ?_, rfl⟩
  · intro n r hc
    simp only [rrExpand]
    rw [if_neg (by omega)]
  · intro n r hc
    simp only [rrExpand]
    rw [if_pos hc]
  · intro n r hc
    simp only [rrConverge]
    rw [if_neg (by omega)]
  · intro n r hc
    simp only [rrConverge]
    rw [if_pos hc]

/-- C7 (amended): each sieve round's total grain weight is non-increasing
(strict decrease can fail in rounds that only subdivide); every surviving
internal cluster-grain of a valid tree subdivides into children of strictly
smaller cardinality; and the loop resolves every grain into instance grains
within depth + 1 rounds, for both sieve variants. -/
theorem sieve_convergence_amended (D : DataSet α) (q : α) (k : ℕ)
    (gs : List Grain) :
    totalWeight (sieveRound D q k (subdivideV1 D q) gs) ≤ totalWeight gs ∧
    totalWeight (sieveRound D q k (subdivideV2 D q) gs) ≤ totalWeight gs ∧
    (∀ (ctr : ℕ) (rad : ℚ) (l r : Cluster),
      Grain.clust (Cluster.node ctr rad l r) ∈ sievePrune D q k gs →
      (Cluster.node ctr rad l r).Valid D →
      l.cardinality < (Cluster.node ctr rad l r).cardinality ∧
      r.cardinality < (Cluster.node ctr rad l r).cardinality) ∧
    (∀ n : ℕ, (∀ g ∈ gs, grainDepth g ≤ n) →
      allInst (sieveLoop D q k (subdivideV1 D q) (n + 1) gs) = true ∧
      allInst (sieveLoop D q k (subdivideV2 D q) (n + 1) gs) = true) := by
  have hwle : ∀ subdiv : Grain → List Grain,
      (∀ g : Grain, (coveredOf (subdiv g)).Perm g.indicesOf) →
      totalWeight (sieveRound D q k subdiv gs) ≤ totalWeight gs := by
    intro subdiv hperm
    have h1 : totalWeight (sieveRound D q k subdiv gs) =
        totalWeight (sievePrune D q k gs) := by
      rw [totalWeight_eq_covered_length, totalWeight_eq_covered_length,
        sieveRound]
      exact (coveredOf_flatMap_perm subdiv hperm _).length_eq
    have h2 : totalWeight (sievePrune D q k gs) ≤ totalWeight gs := by
      rw [totalWeight_eq_covered_length, totalWeight_eq_covered_length,
        sievePrune]
      exact (coveredOf_filter_sublist _ gs).length_le
    omega
  refine ⟨hwle _ (subdivideV1_perm D q), hwle _ (subdivideV2_perm D q),
    ?_, ?_⟩
  · intro ctr rad l r _ hval
    have hl := Cluster.Valid.card_pos hval.2.2.2.1
    have hr := Cluster.Valid.card_pos hval.2.2.2.2
    have hcard : (Cluster.node ctr rad l r).cardinality =
        l.cardinality + r.cardinality := by
      simp [Cluster.cardinality, Cluster.instanceIndices]
    omega
  · intro n hd
    exact ⟨sieveLoop_allInst D q k _ (subdivideV1_depth D q) n gs hd,
      sieveLoop_allInst D q k _ (subdivideV2_depth D q) n gs hd⟩

/-- C8: For every tree, query, and k — provided the tree's root radius is
positive — no variant errs on empty or under-full results: k = 0 yields the
empty sequence, and k exceeding the dataset cardinality yields every
instance of the dataset, sorted ascending by distance, with fewer than k
entries. -/
theorem search_short_results (a : Algorithm) (T : TreeM α) (q : α) (k : ℕ)
    (hm : IsMetricOn T.data.dist) (hv : T.Valid) (hr : 0 < T.root.radius) :
    a.search T q 0 = [] ∧
    (T.data.cardinality < k →
      (a.search T q k).length = T.data.cardinality ∧
      ((a.search T q k).map Prod.fst).Perm (List.range T.data.cardinality) ∧
      List.Sorted (· ≤ ·) ((a.search T q k).map Prod.snd) ∧
      (a.search T q k).length < k) := by
  constructor
  · have h := search_isKnn a T q 0 hm hv hr
    have hlen := h.1
    simp only [Nat.zero_min] at hlen
    exact List.length_eq_zero.mp hlen
  · intro hck
    have h := search_isKnn a T q k hm hv hr
    have hlen : (a.search T q k).length = T.data.cardinality := by
      have := h.1
      omega
    refine ⟨hlen, ?_, h.2.1, by omega⟩
    apply perm_range_of_nodup_subset h.2.2.1
    · intro i hi
      rcases List.mem_map.mp hi with ⟨p, hp, rfl⟩
      exact (h.2.2.2.1 p hp).1
    · rw [List.length_map]
      exact hlen

/-- C9: Search is deterministic — for every algorithm variant, two calls
with the same tree, query, and k denote the same result sequence (the model
is a pure function of its inputs, so tie-breaking is identical as well). -/
theorem search_deterministic (a : Algorithm) (T : TreeM α) (q : α) (k : ℕ) :
    a.search T q k = a.search T q k := rfl

/-- C10: The default algorithm variant is RepeatedRnn, and the dispatcher
maps each of the five enum variants to exactly one strategy, exhaustively
over the enum. -/
theorem algorithm_default_dispatch :
    Algorithm.default = Algorithm.RepeatedRnn ∧
    (∀ (T : TreeM α) (q : α) (k : ℕ),
      Algorithm.search Algorithm.Linear T q k =
        linearSearch T.data q k T.indices ∧
      Algorithm.search Algorithm.RepeatedRnn T q k = knnRepeatedRnn T q k ∧
      Algorithm.search Algorithm.SieveV1 T q k = knnSieveV1 T q k ∧
      Algorithm.search Algorithm.SieveV2 T q k = knnSieveV2 T q k ∧
      Algorithm.search Algorithm.ExpandingThreshold T q k =
        knnExpandingThreshold T q k) :=
  ⟨rfl, fun _ _ _ => ⟨rfl, rfl, rfl, rfl, rfl⟩⟩

end Claims

section ClaimEvidence

attribute [local semireducible] Rat.add Rat.sub Rat.mul Rat.inv

/-- Counterexample for the unrestricted C1: on the valid radius-0 tree
`exT0` (two coincident points) with a query at positive distance, the
spec's repeated-RNN seed radius is 0, doubling never grows it, and the
variant returns no neighbors while linear search returns one. -/
theorem search_equiv_linear_cx :
    IsMetricOn exD0.dist ∧ exT0.Valid ∧
    ¬((Algorithm.search Algorithm.RepeatedRnn exT0 0 1).map Prod.snd =
      (Algorithm.search Algorithm.Linear exT0 0 1).map Prod.snd) :=
  ⟨exDist_metric, exT0_valid, by decide⟩

/-- Witness for C1 at a concrete valid positive-radius tree. -/
theorem search_equiv_linear_witness :
    IsKnnResult exD4 (0 : ℚ) 2 (Algorithm.search Algorithm.SieveV1 exT4 0 2) ∧
    (Algorithm.search Algorithm.SieveV1 exT4 0 2).map Prod.snd =
      (Algorithm.search Algorithm.Linear exT4 0 2).map Prod.snd :=
  search_equiv_linear Algorithm.SieveV1 exT4 0 2 exDist_metric exT4_valid
    (by decide)

/-- Counterexample for the unrestricted C2: on the radius-0 tree the
repeated-RNN result is empty rather than of length min(k, cardinality). -/
theorem search_result_shape_cx :
    IsMetricOn exD0.dist ∧ exT0.Valid ∧
    (Algorithm.search Algorithm.RepeatedRnn exT0 0 1).length ≠
      min 1 exD0.cardinality :=
  ⟨exDist_metric, exT0_valid, by decide⟩

/-- Witness for C2. -/
theorem search_result_shape_witness :
    (Algorithm.search Algorithm.SieveV2 exT4 0 3).length =
      min 3 exD4.cardinality ∧
    List.Sorted (· ≤ ·)
      ((Algorithm.search Algorithm.SieveV2 exT4 0 3).map Prod.snd) ∧
    ((Algorithm.search Algorithm.SieveV2 exT4 0 3).map Prod.fst).Nodup :=
  search_result_shape Algorithm.SieveV2 exT4 0 3 exDist_metric exT4_valid
    (by decide)

/-- Witness for C3. -/
theorem bound_primitives_witness :
    exRoot4.dMinQ exD4 (1/2) =
      max 0 (exD4.dist (1/2) (exD4.pt exRoot4.centerIndex) - exRoot4.radius) ∧
    exRoot4.dMaxQ exD4 (1/2) =
      exD4.dist (1/2) (exD4.pt exRoot4.centerIndex) + exRoot4.radius ∧
    0 ≤ exRoot4.dMinQ exD4 (1/2) ∧
    (∀ i ∈ exRoot4.instanceIndices,
      exRoot4.dMinQ exD4 (1/2) ≤ exD4.dist (1/2) (exD4.pt i) ∧
      exD4.dist (1/2) (exD4.pt i) ≤ exRoot4.dMaxQ exD4 (1/2)) :=
  bound_primitives exD4 (1/2) exRoot4 exDist_metric exT4_valid.1.boundOk

/-- Witness for C4. -/
theorem sieve_threshold_spec_witness :
    2 ≤ weightAtMost exD2 0 (threshold exD2 0 2 [Grain.clust exRoot2])
      [Grain.clust exRoot2] ∧
    (∀ v : ℚ, 2 ≤ weightAtMost exD2 0 v [Grain.clust exRoot2] →
      threshold exD2 0 2 [Grain.clust exRoot2] ≤ v) ∧
    (∀ g ∈ [Grain.clust exRoot2],
      threshold exD2 0 2 [Grain.clust exRoot2] < g.gdmin exD2 0 →
      ∀ j ∈ g.indicesOf,
      2 ≤ (List.range exD2.cardinality).countP
        (fun i => decide (exD2.dist 0 (exD2.pt i) < exD2.dist 0 (exD2.pt j)))) :=
  sieve_threshold_spec exD2 0 2 [Grain.clust exRoot2] exDist_metric
    (fun g hg => by
      rcases List.mem_singleton.mp hg with rfl
      exact exT2_valid.1.boundOk)
    (by decide) (by decide) (by decide) (by decide)

/-- Witness for C5. -/
theorem expanding_threshold_loop_witness :
    etLoop exD2 0 0 1 [exRoot2] [] = [] ∧
    (trimHits 0 [((0 : ℕ), (5 : ℚ))]).length =
      min 0 [((0 : ℕ), (5 : ℚ))].length :=
  ⟨(expanding_threshold_loop_spec exD2 0 0).2.1 0 exRoot2 [] []
      (by decide) (by decide),
   (expanding_threshold_loop_spec exD2 0 0).2.2.2.2.1 1 _ (by decide)⟩

/-- Witness for C6. -/
theorem repeated_rnn_structure_witness :
    rrExpand exT4 (1/2) 1 0 = rrExpand exT4 (1/2) 0 (2 * 0) ∧
    growthFactor exT4 (1/2) 3 1 ≤ 2 :=
  ⟨(repeated_rnn_structure exT4 (1/2) 3).2.1 0 0 (by decide),
   (repeated_rnn_structure exT4 (1/2) 3).2.2.2.1 1⟩

/-- Counterexample for the original C7: the first sieve round on `exT2`
(two singleton leaves under the root) subdivides but prunes nothing, so the
total grain weight stays the same even though the round is not the last. -/
theorem sieve_convergence_cx :
    IsMetricOn exD2.dist ∧ exT2.Valid ∧
    allInst [Grain.clust exRoot2] = false ∧
    allInst (sieveRound exD2 0 2 (subdivideV1 exD2 0)
      [Grain.clust exRoot2]) = false ∧
    totalWeight (sieveRound exD2 0 2 (subdivideV1 exD2 0)
      [Grain.clust exRoot2]) = totalWeight [Grain.clust exRoot2] :=
  ⟨exDist_metric, exT2_valid, by decide, by decide, by decide⟩

/-- Witness for C7 (amended). -/
theorem sieve_convergence_witness :
    totalWeight (sieveRound exD2 0 2 (subdivideV1 exD2 0)
      [Grain.clust exRoot2]) ≤ totalWeight [Grain.clust exRoot2] ∧
    allInst (sieveLoop exD2 0 2 (subdivideV1 exD2 0) 3
      [Grain.clust exRoot2]) = true :=
  ⟨(sieve_convergence_amended exD2 0 2 [Grain.clust exRoot2]).1,
   ((sieve_convergence_amended exD2 0 2 [Grain.clust exRoot2]).2.2.2 2
      (by decide)).1⟩

/-- Counterexample for the unrestricted C8: on the radius-0 tree with
k = 3 > cardinality = 2, repeated-RNN returns the empty sequence instead of
every instance. -/
theorem search_short_results_cx :
    IsMetricOn exD0.dist ∧ exT0.Valid ∧ exD0.cardinality < 3 ∧
    ¬(((Algorithm.search Algorithm.RepeatedRnn exT0 0 3).map Prod.fst).Perm
      (List.range exD0.cardinality)) :=
  ⟨exDist_metric, exT0_valid, by decide, by decide⟩

/-- Witness for C8. -/
theorem search_short_results_witness :
    Algorithm.search Algorithm.ExpandingThreshold exT4 0 0 = [] ∧
    (Algorithm.search Algorithm.ExpandingThreshold exT4 0 7).length =
      exD4.cardinality :=
  ⟨(search_short_results Algorithm.ExpandingThreshold exT4 0 0 exDist_metric
      exT4_valid (by decide)).1,
   ((search_short_results Algorithm.ExpandingThreshold exT4 0 7 exDist_metric
      exT4_valid (by decide)).2 (by decide)).1⟩

end ClaimEvidence
